import Mathlib

/-!
# Deposit scanner: range scheduler, block scanner and deposit decoder

A shallow embedding of `src/main.go` (and of `ParseDepositEvent` from
`src/contract/binding/binding.go`).

* The remote ledger client, the ABI decoder and the log decoder are libraries
  outside the repository; they enter as data (`Client`, `Decoder`).
* Go's `uint64`/`uint`/`int` are modelled by `Nat`/`Int` with explicit
  reduction modulo `2^64`.
* Unbounded retry loops take a fuel argument: `none` means that the loop is
  still spinning after `fuel` attempts.
* The goroutines of `multiThreadedFetch` are modelled by a small-step
  interleaving semantics (`step`, `exec`) over the shared variables.
  The allocation `make([]fetchBlockOutput, runs)` fails as the runtime's
  `makeslice` does on 64-bit Linux: for a negative length and for a length whose
  slots exceed the allocation limit `maxAlloc`. Physical memory is not modelled.
-/

namespace DepositScan

/-! ## Data model -/

abbrev Byte := Fin 256
abbrev Bytes := List Byte
/-- Stands for `common.Address`; only compared for equality. -/
abbrev Address := Nat
/-- Stands for `common.Hash`; only compared for equality. -/
abbrev Hash := Nat

/-- Error values returned by the external libraries. `fake` is the
`errors.New("fake err")` that primes the retry loops. -/
inductive Error where
  | fake
  | transient
  | decode (code : Nat)
  deriving DecidableEq, Repr

/-- The ways in which `main` can abort. -/
inductive Panic where
  /-- Slice expression `data[4:]` on an input shorter than 4 bytes -/
  | sliceBounds
  /-- Abort by `panic(err)` after `Inputs.Unpack` -/
  | unpack (e : Error)
  /-- an index expression out of range (`params[3]`, `b[7]`) -/
  | indexRange
  /-- Abort by the failed type assertion on the data root -/
  | invalidDataRoot
  /-- Abort by `panic(err)` after the scan of the logs -/
  | parseEvent (e : Error)
  /-- a field read through the nil `depEvent` -/
  | nilDereference
  /-- Call of `make` with a length out of range (`makeslice: len out of range`) -/
  | makeslice
  deriving DecidableEq, Repr

/-- Stands for `types.Log` (the fields the decoder can look at). -/
structure Log where
  Address : Address
  Topics : List Hash
  Data : Bytes
  deriving DecidableEq, Repr

/-- Stands for `types.Transaction`; `To = none` is Go's nil destination of a
contract creation. -/
structure Transaction where
  Hash : Hash
  To : Option Address
  Data : Bytes
  deriving DecidableEq, Repr

/-- Stands for `types.Receipt`. -/
structure Receipt where
  Status : Nat
  Logs : List Log
  deriving DecidableEq, Repr

/-- Stands for `types.Block`. -/
structure Block where
  Transactions : List Transaction
  deriving DecidableEq, Repr

structure fetchBlockEntry where
  hash : Hash
  input : Bytes
  logs : List Log
  deriving DecidableEq, Repr

structure fetchBlockOutput where
  block : Nat
  data : List fetchBlockEntry
  deriving DecidableEq, Repr

/-- The zero value of `fetchBlockOutput`, as produced by `make`. -/
instance : Inhabited fetchBlockOutput := ⟨⟨0, []⟩⟩

structure JSONData where
  Pubkey : String
  WithdrawalCredentials : String
  Amount : Nat
  Signature : String
  DepositDataRoot : String
  deriving DecidableEq, Repr

structure BindingDepositEvent where
  Pubkey : Bytes
  WithdrawalCredentials : Bytes
  Amount : Bytes
  Signature : Bytes
  Index : Bytes
  Raw : Log
  deriving DecidableEq, Repr

/-- The dynamic type and value of one entry of the `[]interface{}` returned by
`Inputs.Unpack`. -/
inductive AbiValue where
  | bytes (b : Bytes)
  | bytes32 (b : { l : Bytes // l.length = 32 })
  | other (tag : Nat)
  deriving DecidableEq

/-- The five fields `UnpackLog` stores into the event structure. -/
structure EventFields where
  Pubkey : Bytes
  WithdrawalCredentials : Bytes
  Amount : Bytes
  Signature : Bytes
  Index : Bytes
  deriving DecidableEq, Repr

/-- The contract interface decoder (go-ethereum's `abi` and `bind` packages):
`Unpack` is `abi.Methods["deposit"].Inputs.Unpack`, `UnpackLog` is
`contract.UnpackLog(event, "DepositEvent", log)`. -/
structure Decoder where
  Unpack : Bytes → Except Error (List AbiValue)
  UnpackLog : Log → Except Error EventFields

/-- The remote ledger client. `blockAt` and `receiptOf` are the ledger state a
successful call reports; `blockFails number attempt` and
`receiptFails block pos attempt` say which attempts of a retry loop fail
(`block` is the block being scanned, `pos` the position of the transaction
among those addressed to the target). -/
structure Client where
  blockAt : Nat → Block
  receiptOf : Hash → Receipt
  blockFails : Nat → Nat → Bool
  receiptFails : Nat → Nat → Nat → Bool

def Client.BlockByNumber (client : Client) (number attempt : Nat) : Except Error Block :=
  if client.blockFails number attempt then .error .transient else .ok (client.blockAt number)

def Client.TransactionReceipt (client : Client) (block pos : Nat) (hash : Hash)
    (attempt : Nat) : Except Error Receipt :=
  if client.receiptFails block pos attempt then .error .transient
  else .ok (client.receiptOf hash)

/-- One remote call as seen on the wire, with its outcome. -/
inductive Call where
  | blockByNumber (number : Nat) (ok : Bool)
  | transactionReceipt (hash : Hash) (ok : Bool)
  deriving DecidableEq, Repr

/-! ## Machine arithmetic -/

/-- Conversion `int(x)` of a `uint64` on a 64-bit platform. -/
def toInt64 (x : Nat) : Int :=
  if x % 2 ^ 64 < 2 ^ 63 then ((x % 2 ^ 64 : Nat) : Int) else ((x % 2 ^ 64 : Nat) : Int) - 2 ^ 64

/-- Subtraction `a - b` on `uint64`. -/
def subU64 (a b : Nat) : Nat := (a % 2 ^ 64 + 2 ^ 64 - b % 2 ^ 64) % 2 ^ 64

/-- Addition `a + b` on `uint64`. -/
def addU64 (a b : Nat) : Nat := (a + b) % 2 ^ 64

/-- Go's `binary.LittleEndian.Uint64`: bounds check on `b[7]`, then the eight
bytes combined by shifts and ors. -/
def LittleEndianUint64 (b : Bytes) : Except Panic Nat :=
  match b with
  | b0 :: b1 :: b2 :: b3 :: b4 :: b5 :: b6 :: b7 :: _ =>
    .ok ((b0.val ||| b1.val <<< 8 ||| b2.val <<< 16 ||| b3.val <<< 24 |||
      b4.val <<< 32 ||| b5.val <<< 40 ||| b6.val <<< 48 ||| b7.val <<< 56) % 2 ^ 64)
  | _ => .error .indexRange

/-- The two lower-case hex digits of a byte. -/
def hexByte (b : Byte) : List Char := [Nat.digitChar (b.val / 16), Nat.digitChar (b.val % 16)]

def hexChars : Bytes → List Char
  | [] => []
  | b :: rest => hexByte b ++ hexChars rest

/-- Go-ethereum's `hexutil.Encode`: `0x` followed by two hex digits per byte. -/
def hexutilEncode (b : Bytes) : String := String.mk ('0' :: 'x' :: hexChars b)

/-! ## Retrying fetch and block scanner (`fetchBlock`) -/

/-- The loop `for err != nil { v, err = call() }`: `call n` is the outcome of
the attempt number `n`. Returns the value of the first successful attempt and
the outcome of every invocation made, in order. -/
def retryLoop {α : Type} (call : Nat → Except Error α) : Nat → Nat → Option (α × List Bool)
  | 0, _ => none
  | fuel + 1, n =>
    match call n with
    | .ok v => some (v, [true])
    | .error _ =>
      match retryLoop call fuel (n + 1) with
      | none => none
      | some (v, outcomes) => some (v, false :: outcomes)

/-- First loop of `fetchBlock`: keep the transactions addressed to `filter`. -/
def filterLoop (filter : Address) : List Transaction → List Transaction → List Transaction
  | [], txns => txns
  | txn :: rest, txns =>
    if txn.To = some filter then filterLoop filter rest (txns ++ [txn])
    else filterLoop filter rest txns

/-- Second loop of `fetchBlock`: fetch each receipt, keep the successful
transactions. -/
def receiptLoop (client : Client) (fuel block : Nat) :
    List Transaction → Nat → fetchBlockOutput → List Call → Option (fetchBlockOutput × List Call)
  | [], _, output, calls => some (output, calls)
  | txn :: rest, pos, output, calls =>
    match retryLoop (client.TransactionReceipt block pos txn.Hash) fuel 0 with
    | none => none
    | some (rcpt, outcomes) =>
      let calls1 := calls ++ outcomes.map (Call.transactionReceipt txn.Hash)
      if rcpt.Status = 1 then
        receiptLoop client fuel block rest (pos + 1)
          { output with data := output.data ++ [⟨txn.Hash, txn.Data, rcpt.Logs⟩] } calls1
      else
        receiptLoop client fuel block rest (pos + 1) output calls1

/-- The block scanner. Returns the block result and the remote calls made. -/
def fetchBlock (client : Client) (fuel block : Nat) (filter : Address) :
    Option (fetchBlockOutput × List Call) :=
  match retryLoop (client.BlockByNumber block) fuel 0 with
  | none => none
  | some (blk, outcomes) =>
    let txns := filterLoop filter blk.Transactions []
    receiptLoop client fuel block txns 0 ⟨block, []⟩ (outcomes.map (Call.blockByNumber block))

/-! ## Range scheduler (`multiThreadedFetch`) -/

def maxThreads : Nat := 80

/-- Progress of one goroutine: before `output[i] = fetchBlock(..)`, between the
slot write and `activeThreads.Sub(1)`, after the decrement. -/
inductive Phase where
  | fetching
  | written
  | finished
  deriving DecidableEq, Repr

/-- A spawned goroutine with the value of its parameter `i`. -/
structure Task where
  i : Nat
  phase : Phase
  deriving DecidableEq, Repr

/-- Program counter of the dispatching thread: at the polling gate of the loop
head, before `activeThreads.Add(1)`, before the `go` statement, in the final
wait loop, returned. -/
inductive MainPc where
  | gate
  | add
  | spawn
  | wait
  | returned
  deriving DecidableEq, Repr

/-- Shared and dispatcher-local variables of `multiThreadedFetch`. `calls` and
`writes` are history variables: the remote calls made by the completed scans and
the slot indices written, in order. -/
structure Sched where
  runs : Nat
  pc : MainPc
  i : Nat
  activeThreads : Nat
  output : List fetchBlockOutput
  tasks : List Task
  calls : List Call
  writes : List Nat
  deriving DecidableEq, Repr

/-- A scheduling choice: the dispatcher moves, goroutine `t` performs its slot
write, or goroutine `t` performs its decrement. -/
inductive Action where
  | main
  | write (t : Nat)
  | finish (t : Nat)
  deriving DecidableEq, Repr

/-- Method `mutexedUint.Add` on the 64-bit `uint`. -/
def mutexedUint.Add (val x : Nat) : Nat := (val + x) % 2 ^ 64

/-- Method `mutexedUint.Sub` on the 64-bit `uint` (wraps below zero). -/
def mutexedUint.Sub (val x : Nat) : Nat := (val + 2 ^ 64 - x % 2 ^ 64) % 2 ^ 64

/-- Size in bytes of one `fetchBlockOutput` (a `uint64` and a slice header) on a
64-bit platform. -/
def slotSize : Nat := 32

/-- The runtime's allocation limit `maxAlloc` on 64-bit Linux (48 address
bits). -/
def maxAlloc : Nat := 2 ^ 48

/-- Entry of `multiThreadedFetch` up to the loop: `runs := int(to - from)` and
`make([]fetchBlockOutput, runs)`, which panics as `makeslice` does when `runs` is
negative or `runs` slots take more than `maxAlloc` bytes. -/
def multiThreadedFetch.init (from_ to_ : Nat) : Except Panic Sched :=
  let runs := toInt64 (subU64 to_ from_)
  if runs < 0 ∨ runs.toNat * slotSize > maxAlloc then .error .makeslice
  else .ok
    { runs := runs.toNat, pc := .gate, i := 0, activeThreads := 0,
      output := List.replicate runs.toNat default, tasks := [], calls := [], writes := [] }

/-- One atomic step. A dispatcher that would sleep (gate closed, or tasks still
active in the final wait) has no step; neither has a goroutine whose scan has
not come back within `fuel` attempts. -/
def step (client : Client) (fuel from_ : Nat) (filter : Address) (s : Sched) :
    Action → Option Sched
  | .main =>
    match s.pc with
    | .gate =>
      if s.i < s.runs then
        if s.activeThreads ≥ maxThreads then none else some { s with pc := .add }
      else some { s with pc := .wait }
    | .add => some { s with activeThreads := mutexedUint.Add s.activeThreads 1, pc := .spawn }
    | .spawn => some { s with tasks := s.tasks ++ [⟨s.i, .fetching⟩], i := s.i + 1, pc := .gate }
    | .wait => if s.activeThreads > 0 then none else some { s with pc := .returned }
    | .returned => none
  | .write t =>
    match s.tasks[t]? with
    | some ⟨i, .fetching⟩ =>
      match fetchBlock client fuel (addU64 from_ i) filter with
      | none => none
      | some (out, calls) =>
        some { s with
          output := s.output.set i out, tasks := s.tasks.set t ⟨i, .written⟩,
          calls := s.calls ++ calls, writes := s.writes ++ [i] }
    | _ => none
  | .finish t =>
    match s.tasks[t]? with
    | some ⟨i, .written⟩ =>
      some { s with
        activeThreads := mutexedUint.Sub s.activeThreads 1, tasks := s.tasks.set t ⟨i, .finished⟩ }
    | _ => none

/-- Run a schedule; `none` when some action of it is not enabled. -/
def exec (client : Client) (fuel from_ : Nat) (filter : Address) : List Action → Sched → Option Sched
  | [], s => some s
  | a :: rest, s =>
    match step client fuel from_ filter s a with
    | none => none
    | some s1 => exec client fuel from_ filter rest s1

/-- The scheduler under the schedule `acts`: `none` when the schedule does not
lead to the `return`, otherwise the panic or the returned slice. -/
def multiThreadedFetch (client : Client) (fuel from_ to_ : Nat) (filter : Address)
    (acts : List Action) : Option (Except Panic (List fetchBlockOutput)) :=
  match multiThreadedFetch.init from_ to_ with
  | .error p => some (.error p)
  | .ok s0 =>
    match exec client fuel from_ filter acts s0 with
    | none => none
    | some s => if s.pc = .returned then some (.ok s.output) else none

/-- A goroutine counts as active until it has decremented the counter. -/
def Task.active (t : Task) : Bool :=
  match t.phase with
  | .fetching => true
  | .written => true
  | .finished => false

/-- Goroutines that have been spawned and have not yet decremented the counter. -/
def activeTasks (s : Sched) : Nat := (s.tasks.filter Task.active).length

/-! ## Deposit decoder (`main`) -/

/-- Method `ParseDepositEvent` of the generated binding. -/
def ParseDepositEvent (d : Decoder) (log : Log) : Except Error BindingDepositEvent :=
  match d.UnpackLog log with
  | .error e => .error e
  | .ok ev =>
    .ok ⟨ev.Pubkey, ev.WithdrawalCredentials, ev.Amount, ev.Signature, ev.Index, log⟩

/-- The loop over `txData.logs`, on the variables `depEvent` and `err`. -/
def parseLogs (d : Decoder) :
    List Log → Option BindingDepositEvent → Option Error →
      Option BindingDepositEvent × Option Error
  | [], depEvent, err => (depEvent, err)
  | evnt :: rest, _, _ =>
    match ParseDepositEvent d evnt with
    | .ok ev => (some ev, none)
    | .error e => parseLogs d rest none (some e)

/-- Body of the inner loop of `main`: one transaction to one record. -/
def decodeTx (d : Decoder) (txData : fetchBlockEntry) : Except Panic JSONData :=
  if txData.input.length < 4 then .error .sliceBounds
  else
    match d.Unpack (txData.input.drop 4) with
    | .error e => .error (.unpack e)
    | .ok params =>
      match (params[3]? : Option AbiValue) with
      | none => .error .indexRange
      | some (AbiValue.bytes32 dataRoot) =>
        match parseLogs d txData.logs none none with
        | (_, some e) => .error (.parseEvent e)
        | (none, none) => .error .nilDereference
        | (some depEvent, none) =>
          match LittleEndianUint64 depEvent.Amount with
          | .error p => .error p
          | .ok amount =>
            .ok
              { Pubkey := hexutilEncode depEvent.Pubkey
                WithdrawalCredentials := hexutilEncode depEvent.WithdrawalCredentials
                Amount := amount
                Signature := hexutilEncode depEvent.Signature
                DepositDataRoot := hexutilEncode dataRoot.val }
      | some _ => .error .invalidDataRoot

/-- Inner loop of `main` over `blk.data`, appending to `output`. -/
def decodeTxs (d : Decoder) : List fetchBlockEntry → List JSONData → Except Panic (List JSONData)
  | [], output => .ok output
  | txData :: rest, output =>
    match decodeTx d txData with
    | .error p => .error p
    | .ok r => decodeTxs d rest (output ++ [r])

/-- Outer loop of `main` over `blockData`. -/
def decodeBlocks (d : Decoder) :
    List fetchBlockOutput → List JSONData → Except Panic (List JSONData)
  | [], output => .ok output
  | blk :: rest, output =>
    match decodeTxs d blk.data output with
    | .error p => .error p
    | .ok output1 => decodeBlocks d rest output1

/-- Function `main` from the call of `multiThreadedFetch` to the end of the decoding
loops: the value of `output` handed to `json.Marshal`, or the panic. `none` when
the schedule does not lead to the scheduler's `return`. -/
def mainRun (client : Client) (d : Decoder) (fuel from_ to_ : Nat) (filter : Address)
    (acts : List Action) : Option (Except Panic (List JSONData)) :=
  match multiThreadedFetch client fuel from_ to_ filter acts with
  | none => none
  | some (.error p) => some (.error p)
  | some (.ok blockData) => some (decodeBlocks d blockData [])

/-! ## Specification vocabulary -/

/-- Remote calls made by the scan that the goroutine with parameter `j` runs. -/
def scanCalls (client : Client) (fuel from_ : Nat) (filter : Address) (j : Nat) : List Call :=
  match fetchBlock client fuel (addU64 from_ j) filter with
  | some (_, calls) => calls
  | none => []

/-- Remote calls of the scans in the order of their slot writes. -/
def callsOfWrites (client : Client) (fuel from_ : Nat) (filter : Address) : List Nat → List Call
  | [] => []
  | j :: rest => scanCalls client fuel from_ filter j ++ callsOfWrites client fuel from_ filter rest

/-- Inductive invariant of the scheduler. -/
structure Inv (client : Client) (fuel from_ : Nat) (filter : Address) (s : Sched) : Prop where
  len : s.tasks.length = s.i
  idx : ∀ (t : Nat) (task : Task), s.tasks[t]? = some task → task.i = t
  le : s.i ≤ s.runs
  lt : s.pc = .add ∨ s.pc = .spawn → s.i < s.runs
  fin : s.pc = .wait ∨ s.pc = .returned → s.i = s.runs
  out : s.output.length = s.runs
  act : s.activeThreads = activeTasks s + (if s.pc = .spawn then 1 else 0)
  bound : s.activeThreads ≤ maxThreads
  addlt : s.pc = .add → s.activeThreads < maxThreads
  ret : s.pc = .returned → s.activeThreads = 0
  slots : ∀ (t : Nat) (task : Task), s.tasks[t]? = some task → task.phase ≠ .fetching →
    ∃ out calls, fetchBlock client fuel (addU64 from_ t) filter = some (out, calls) ∧
      s.output[t]? = some out
  nodup : s.writes.Nodup
  mem : ∀ j, j ∈ s.writes ↔ ∃ task : Task, s.tasks[j]? = some task ∧ task.phase ≠ .fetching
  hist : s.calls = callsOfWrites client fuel from_ filter s.writes

/-- Work left for one goroutine. -/
def phaseRank : Phase → Nat
  | .fetching => 2
  | .written => 1
  | .finished => 0

/-- Work left for the dispatcher at its program counter. -/
def pcRank : MainPc → Nat
  | .gate => 3
  | .add => 2
  | .spawn => 1
  | .wait => 1
  | .returned => 0

/-- Termination measure: every step of the scheduler lowers it. -/
def stepsLeft (s : Sched) : Nat :=
  5 * (s.runs - s.i) + pcRank s.pc + (s.tasks.map fun t => phaseRank t.phase).sum

/-- A goroutine that has performed `activeThreads.Sub(1)`. -/
def Task.done (t : Task) : Bool :=
  match t.phase with
  | .fetching => false
  | .written => false
  | .finished => true

/-- Tasks dispatched: those for which the dispatcher has performed
`activeThreads.Add(1)`; the `go` statement of the last one may still be
pending. -/
def dispatched (s : Sched) : Nat := s.tasks.length + (if s.pc = .spawn then 1 else 0)

/-- Tasks that have decremented the counter. -/
def decremented (s : Sched) : Nat := (s.tasks.filter Task.done).length

/-! ## Example ledger, decoder and schedules -/

/-- A toy interface decoder: the call input decodes when non-empty (a leading
zero byte yields a fourth parameter of the wrong type); a log decodes when its
only topic is `1`. -/
def exDecoder : Decoder where
  Unpack := fun data =>
    match data with
    | [] => .error (.decode 1)
    | b :: _ =>
      if b.val = 0 then .ok [.bytes [], .bytes [], .bytes [], .other 0]
      else .ok [.bytes [b], .bytes [b], .bytes [b], .bytes32 ⟨List.replicate 32 b, by simp⟩]
  UnpackLog := fun log =>
    if log.Topics = [1] then
      .ok ⟨log.Data.take 1, log.Data.take 2, log.Data.drop 2, [9], [0]⟩
    else .error (.decode 2)

/-- A deposit log carrying the amount one. -/
def exLog : Log := ⟨7, [1], [0xaa, 0xbb, 1, 0, 0, 0, 0, 0, 0, 0]⟩

/-- A log of some other event. -/
def exOtherLog : Log := ⟨7, [0], []⟩

/-- A toy ledger. Block 10 holds a deposit, a contract creation, a reverted
deposit and a transfer elsewhere; block 11 a call with a malformed data root;
block 12 a call without deposit event; block 13 a call without logs; every other
block is empty. Block fetches fail `number % 3` times, the receipt fetch at
position `pos` fails `pos` times. -/
def exClient : Client where
  blockAt := fun n =>
    if n = 10 then
      ⟨[⟨1, some 7, [1, 2, 3, 4, 5]⟩, ⟨2, none, [1, 2, 3, 4, 5]⟩, ⟨3, some 7, [1, 2, 3, 4, 5]⟩,
        ⟨4, some 8, [1, 2, 3, 4, 5]⟩]⟩
    else if n = 11 then ⟨[⟨5, some 7, [1, 2, 3, 4, 0]⟩]⟩
    else if n = 12 then ⟨[⟨6, some 7, [1, 2, 3, 4, 5]⟩]⟩
    else if n = 13 then ⟨[⟨8, some 7, [1, 2, 3, 4, 5]⟩]⟩
    else ⟨[]⟩
  receiptOf := fun h =>
    if h = 1 then ⟨1, [exOtherLog, exLog, exOtherLog]⟩
    else if h = 3 then ⟨0, [exLog]⟩
    else if h = 5 then ⟨1, [exLog]⟩
    else if h = 6 then ⟨1, [exOtherLog]⟩
    else ⟨1, []⟩
  blockFails := fun n a => decide (a < n % 3)
  receiptFails := fun _ pos a => decide (a < pos)

/-- The retained deposit transaction of block 10. -/
def exEntry : fetchBlockEntry := ⟨1, [1, 2, 3, 4, 5], [exOtherLog, exLog, exOtherLog]⟩

/-- A schedule for a range of two blocks in which the second scan completes
first. -/
def exSchedule : List Action :=
  [.main, .main, .main, .main, .main, .main, .write 1, .write 0, .finish 0, .finish 1,
    .main, .main]

/-- A call that fails twice and then yields `7`. -/
def exCall : Nat → Except Error Nat := fun n => if n < 2 then .error .transient else .ok 7

/-- A ledger of empty blocks whose calls never fail. -/
def exEmptyClient : Client where
  blockAt := fun _ => ⟨[]⟩
  receiptOf := fun _ => ⟨1, []⟩
  blockFails := fun _ _ => false
  receiptFails := fun _ _ _ => false

/-- Eighty dispatches in a row, no scan completing. -/
def exFill : List Action := (List.replicate 80 [Action.main, Action.main, Action.main]).flatten

/-- The ledger of `exClient` behind a network without failures. -/
def exClient2 : Client :=
  { exClient with blockFails := fun _ _ => false, receiptFails := fun _ _ _ => false }

/-- A schedule for a range of two blocks in which each scan completes before
the next one is dispatched. -/
def exSchedule2 : List Action :=
  [.main, .main, .main, .write 0, .finish 0, .main, .main, .main, .write 1, .finish 1,
    .main, .main]

/-- A schedule for a range of one block. -/
def exScheduleOne : List Action := [.main, .main, .main, .write 0, .finish 0, .main, .main]

/-- A ledger whose block 30 holds one successful call to the target with a
two-byte input and whose block 31 holds one with a deposit event of a
three-byte amount; calls never fail. -/
def exShortClient : Client where
  blockAt := fun n =>
    if n = 30 then ⟨[⟨1, some 7, [1, 2]⟩]⟩
    else if n = 31 then ⟨[⟨2, some 7, [1, 2, 3, 4, 5]⟩]⟩
    else ⟨[]⟩
  receiptOf := fun h =>
    if h = 1 then ⟨1, [exLog]⟩ else ⟨1, [⟨7, [1], [0xaa, 0xbb, 1, 0, 0]⟩]⟩
  blockFails := fun _ _ => false
  receiptFails := fun _ _ _ => false

/-- A deposit log whose amount payload has ten bytes. -/
def exLongLog : Log := ⟨7, [1], [0xaa, 0xbb, 0, 0xca, 0x9a, 0x3b, 0, 0, 0, 0, 0xff, 0xff]⟩

/-- A ledger with two deposits in block 40 and one in block 41, told apart by the
last byte of their call input; calls never fail. -/
def exOrderClient : Client where
  blockAt := fun n =>
    if n = 40 then ⟨[⟨1, some 7, [1, 2, 3, 4, 5]⟩, ⟨2, some 7, [1, 2, 3, 4, 6]⟩]⟩
    else if n = 41 then ⟨[⟨3, some 7, [1, 2, 3, 4, 7]⟩]⟩
    else ⟨[]⟩
  receiptOf := fun h => if h = 2 then ⟨1, [exLongLog]⟩ else ⟨1, [exLog]⟩
  blockFails := fun _ _ => false
  receiptFails := fun _ _ _ => false

/-- The block results of `exOrderClient` for blocks 40 and 41. -/
def exOrderBlocks : List fetchBlockOutput :=
  [⟨40, [⟨1, [1, 2, 3, 4, 5], [exLog]⟩, ⟨2, [1, 2, 3, 4, 6], [exLongLog]⟩]⟩,
    ⟨41, [⟨3, [1, 2, 3, 4, 7], [exLog]⟩]⟩]

/-- The records of `exOrderBlocks`, in ledger order. -/
def exOrderRecords : List JSONData :=
  [⟨"0xaa", "0xaabb", 1, "0x09",
      "0x0505050505050505050505050505050505050505050505050505050505050505"⟩,
    ⟨"0xaa", "0xaabb", 1000000000, "0x09",
      "0x0606060606060606060606060606060606060606060606060606060606060606"⟩,
    ⟨"0xaa", "0xaabb", 1, "0x09",
      "0x0707070707070707070707070707070707070707070707070707070707070707"⟩]

/-- The state in which the scan of blocks 10 and 11 of `exClient` returns under
`exSchedule`. -/
def exFinal : Sched :=
  ⟨2, .returned, 2, 0, [⟨10, [exEntry]⟩, ⟨11, [⟨5, [1, 2, 3, 4, 0], [exLog]⟩]⟩],
    [⟨0, .finished⟩, ⟨1, .finished⟩],
    [.blockByNumber 11 false, .blockByNumber 11 false, .blockByNumber 11 true,
      .transactionReceipt 5 true, .blockByNumber 10 false, .blockByNumber 10 true,
      .transactionReceipt 1 true, .transactionReceipt 3 false,
      .transactionReceipt 3 true], [1, 0]⟩

/-! ## Retry loop -/

theorem retryLoop_split {α : Type} (call : Nat → Except Error α) :
    ∀ (fuel n : Nat) (v : α) (outcomes : List Bool),
      retryLoop call fuel n = some (v, outcomes) →
        ∃ k, k < fuel ∧ outcomes = List.replicate k false ++ [true] ∧
          call (n + k) = .ok v ∧ ∀ j, j < k → ∃ e, call (n + j) = .error e := by
  intro fuel
  induction fuel with
  | zero => intro n v outcomes h; simp [retryLoop] at h
  | succ fuel ih =>
    intro n v outcomes h
    unfold retryLoop at h
    cases hc : call n with
    | ok w =>
      rw [hc] at h
      simp only [Option.some.injEq, Prod.mk.injEq] at h
      refine ⟨0, Nat.succ_pos _, ?_, ?_, ?_⟩
      · simp [h.2]
      · simpa [h.1] using hc
      · intro j hj; omega
    | error e =>
      rw [hc] at h
      cases hr : retryLoop call fuel (n + 1) with
      | none => rw [hr] at h; simp at h
      | some p =>
        obtain ⟨w, tr⟩ := p
        rw [hr] at h
        simp only [Option.some.injEq, Prod.mk.injEq] at h
        obtain ⟨k, hk, htr, hok, hfail⟩ := ih (n + 1) w tr hr
        refine ⟨k + 1, by omega, ?_, ?_, ?_⟩
        · rw [← h.2, htr]; rfl
        · rw [← h.1, ← hok]; congr 1; omega
        · intro j hj
          cases j with
          | zero => exact ⟨e, hc⟩
          | succ j =>
            obtain ⟨e1, he1⟩ := hfail j (by omega)
            exact ⟨e1, by rw [← he1]; congr 1; omega⟩

theorem retryLoop_of_script {α : Type} (call : Nat → Except Error α) :
    ∀ (k fuel n : Nat) (v : α), (∀ j, j < k → ∃ e, call (n + j) = .error e) →
      call (n + k) = .ok v → k < fuel →
        retryLoop call fuel n = some (v, List.replicate k false ++ [true]) := by
  intro k
  induction k with
  | zero =>
    intro fuel n v _ hok hfuel
    cases fuel with
    | zero => omega
    | succ fuel =>
      unfold retryLoop
      rw [Nat.add_zero] at hok
      rw [hok]; rfl
  | succ k ih =>
    intro fuel n v hfail hok hfuel
    cases fuel with
    | zero => omega
    | succ fuel =>
      unfold retryLoop
      obtain ⟨e, he⟩ := hfail 0 (Nat.succ_pos _)
      rw [Nat.add_zero] at he
      rw [he]
      have h1 : ∀ j, j < k → ∃ e, call (n + 1 + j) = .error e := by
        intro j hj
        obtain ⟨e1, he1⟩ := hfail (j + 1) (by omega)
        exact ⟨e1, by rw [← he1]; congr 1; omega⟩
      have h2 : call (n + 1 + k) = .ok v := by rw [← hok]; congr 1; omega
      rw [ih fuel (n + 1) v h1 h2 (by omega)]
      rfl

/-- A loop whose call succeeds at some attempt below the fuel comes back. -/
theorem retryLoop_isSome {α : Type} (call : Nat → Except Error α) (fuel n k : Nat) (v : α)
    (hk : k < fuel) (hok : call (n + k) = .ok v) :
    ∃ w outcomes, retryLoop call fuel n = some (w, outcomes) := by
  induction k using Nat.strong_induction_on generalizing v with
  | _ k ih =>
    by_cases hall : ∀ j, j < k → ∃ e, call (n + j) = .error e
    · exact ⟨v, _, retryLoop_of_script call k fuel n v hall hok hk⟩
    · push_neg at hall
      obtain ⟨j, hj, hne⟩ := hall
      cases hc : call (n + j) with
      | error e => exact absurd hc (hne e)
      | ok w => exact ih j hj w (by omega) hc

/-! ## Block scanner -/

theorem filterLoop_eq (filter : Address) :
    ∀ (l txns : List Transaction),
      filterLoop filter l txns = txns ++ l.filter fun txn => decide (txn.To = some filter) := by
  intro l
  induction l with
  | nil => intro txns; simp [filterLoop]
  | cons txn rest ih =>
    intro txns
    unfold filterLoop
    by_cases h : txn.To = some filter
    · rw [if_pos h, ih, List.filter_cons_of_pos (by simpa using h)]
      simp
    · rw [if_neg h, ih, List.filter_cons_of_neg (by simpa using h)]

theorem blockByNumber_ok (client : Client) (number attempt : Nat) (blk : Block)
    (h : client.BlockByNumber number attempt = .ok blk) :
    blk = client.blockAt number ∧ client.blockFails number attempt = false := by
  unfold Client.BlockByNumber at h
  cases hf : client.blockFails number attempt with
  | true => rw [hf] at h; simp at h
  | false =>
    rw [hf] at h
    simp only [Bool.false_eq_true, if_false, Except.ok.injEq] at h
    exact ⟨h.symm, rfl⟩

theorem transactionReceipt_ok (client : Client) (block pos : Nat) (hash : Hash) (attempt : Nat)
    (rcpt : Receipt) (h : client.TransactionReceipt block pos hash attempt = .ok rcpt) :
    rcpt = client.receiptOf hash ∧ client.receiptFails block pos attempt = false := by
  unfold Client.TransactionReceipt at h
  cases hf : client.receiptFails block pos attempt with
  | true => rw [hf] at h; simp at h
  | false =>
    rw [hf] at h
    simp only [Bool.false_eq_true, if_false, Except.ok.injEq] at h
    exact ⟨h.symm, rfl⟩

theorem receiptLoop_data (client : Client) (fuel block : Nat) :
    ∀ (txns : List Transaction) (pos : Nat) (output : fetchBlockOutput) (calls : List Call)
      (out : fetchBlockOutput) (calls1 : List Call),
      receiptLoop client fuel block txns pos output calls = some (out, calls1) →
        out.block = output.block ∧
        out.data = output.data ++
          (txns.filter fun txn => decide ((client.receiptOf txn.Hash).Status = 1)).map
            fun txn => ⟨txn.Hash, txn.Data, (client.receiptOf txn.Hash).Logs⟩ := by
  intro txns
  induction txns with
  | nil =>
    intro pos output calls out calls1 h
    simp only [receiptLoop, Option.some.injEq, Prod.mk.injEq] at h
    simp [h.1]
  | cons txn rest ih =>
    intro pos output calls out calls1 h
    unfold receiptLoop at h
    cases hr : retryLoop (client.TransactionReceipt block pos txn.Hash) fuel 0 with
    | none => rw [hr] at h; simp at h
    | some p =>
      obtain ⟨rcpt, outcomes⟩ := p
      rw [hr] at h
      obtain ⟨k, _, _, hok, _⟩ := retryLoop_split _ fuel 0 rcpt outcomes hr
      have hrc := (transactionReceipt_ok client block pos txn.Hash _ rcpt hok).1
      subst hrc
      by_cases hs : (client.receiptOf txn.Hash).Status = 1
      · simp only [hs, if_true] at h
        obtain ⟨h1, h2⟩ := ih _ _ _ _ _ h
        refine ⟨h1, ?_⟩
        rw [h2, List.filter_cons_of_pos (by simpa using hs)]
        simp
      · simp only [hs, if_false] at h
        obtain ⟨h1, h2⟩ := ih _ _ _ _ _ h
        refine ⟨h1, ?_⟩
        rw [h2, List.filter_cons_of_neg (by simpa using hs)]

theorem receiptLoop_isSome (client : Client) (fuel block : Nat)
    (hrc : ∀ pos, ∃ k, k < fuel ∧ client.receiptFails block pos k = false) :
    ∀ (txns : List Transaction) (pos : Nat) (output : fetchBlockOutput) (calls : List Call),
      ∃ out calls1, receiptLoop client fuel block txns pos output calls = some (out, calls1) := by
  intro txns
  induction txns with
  | nil => intro pos output calls; exact ⟨output, calls, rfl⟩
  | cons txn rest ih =>
    intro pos output calls
    obtain ⟨k, hk, hf⟩ := hrc pos
    have hok : client.TransactionReceipt block pos txn.Hash (0 + k) =
        .ok (client.receiptOf txn.Hash) := by
      simp [Client.TransactionReceipt, hf]
    obtain ⟨rcpt, outcomes, hr⟩ := retryLoop_isSome _ fuel 0 k _ hk hok
    unfold receiptLoop
    rw [hr]
    by_cases hs : rcpt.Status = 1
    · simp only [hs, if_true]; exact ih _ _ _
    · simp only [hs, if_false]; exact ih _ _ _

theorem fetchBlock_data (client : Client) (fuel block : Nat) (filter : Address)
    (out : fetchBlockOutput) (calls : List Call)
    (h : fetchBlock client fuel block filter = some (out, calls)) :
    out.block = block ∧
    out.data =
      ((client.blockAt block).Transactions.filter fun txn =>
          decide (txn.To = some filter) && decide ((client.receiptOf txn.Hash).Status = 1)).map
        fun txn => ⟨txn.Hash, txn.Data, (client.receiptOf txn.Hash).Logs⟩ := by
  unfold fetchBlock at h
  cases hr : retryLoop (client.BlockByNumber block) fuel 0 with
  | none => rw [hr] at h; simp at h
  | some p =>
    obtain ⟨blk, outcomes⟩ := p
    rw [hr] at h
    obtain ⟨k, _, _, hok, _⟩ := retryLoop_split _ fuel 0 blk outcomes hr
    have hb := (blockByNumber_ok client block _ blk hok).1
    subst hb
    obtain ⟨h1, h2⟩ := receiptLoop_data client fuel block _ _ _ _ _ _ h
    refine ⟨h1, ?_⟩
    rw [h2, filterLoop_eq, List.nil_append, List.nil_append, List.filter_filter]
    congr 1
    apply List.filter_congr
    intro txn _
    exact Bool.and_comm _ _

theorem fetchBlock_isSome (client : Client) (fuel block : Nat) (filter : Address)
    (hblk : ∃ k, k < fuel ∧ client.blockFails block k = false)
    (hrc : ∀ pos, ∃ k, k < fuel ∧ client.receiptFails block pos k = false) :
    ∃ out calls, fetchBlock client fuel block filter = some (out, calls) := by
  obtain ⟨k, hk, hf⟩ := hblk
  have hok : client.BlockByNumber block (0 + k) = .ok (client.blockAt block) := by
    simp [Client.BlockByNumber, hf]
  obtain ⟨blk, outcomes, hr⟩ := retryLoop_isSome _ fuel 0 k _ hk hok
  unfold fetchBlock
  rw [hr]
  exact receiptLoop_isSome client fuel block hrc _ _ _ _

/-! ## Deposit decoder -/

theorem lor_shiftLeft_of_lt (acc b k : Nat) (h : acc < 2 ^ k) :
    acc ||| b <<< k = acc + b * 2 ^ k := by
  rw [Nat.shiftLeft_eq, Nat.lor_comm, Nat.mul_comm b, ← Nat.mul_add_lt_is_or h, Nat.add_comm,
    Nat.mul_comm]

theorem LittleEndianUint64_cons8 (b0 b1 b2 b3 b4 b5 b6 b7 : Byte) (rest : Bytes) :
    LittleEndianUint64 (b0 :: b1 :: b2 :: b3 :: b4 :: b5 :: b6 :: b7 :: rest) =
      .ok (b0.val + b1.val * 256 + b2.val * 256 ^ 2 + b3.val * 256 ^ 3 + b4.val * 256 ^ 4 +
        b5.val * 256 ^ 5 + b6.val * 256 ^ 6 + b7.val * 256 ^ 7) := by
  have h0 := b0.isLt
  have h1 := b1.isLt
  have h2 := b2.isLt
  have h3 := b3.isLt
  have h4 := b4.isLt
  have h5 := b5.isLt
  have h6 := b6.isLt
  have h7 := b7.isLt
  unfold LittleEndianUint64
  simp only
  rw [lor_shiftLeft_of_lt _ _ 8 (by norm_num),
    lor_shiftLeft_of_lt _ _ 16 (by norm_num; omega),
    lor_shiftLeft_of_lt _ _ 24 (by norm_num; omega),
    lor_shiftLeft_of_lt _ _ 32 (by norm_num; omega),
    lor_shiftLeft_of_lt _ _ 40 (by norm_num; omega),
    lor_shiftLeft_of_lt _ _ 48 (by norm_num; omega),
    lor_shiftLeft_of_lt _ _ 56 (by norm_num; omega)]
  congr 1
  rw [Nat.mod_eq_of_lt (by norm_num; omega)]
  norm_num

theorem LittleEndianUint64_short (b : Bytes) (h : b.length < 8) :
    LittleEndianUint64 b = .error .indexRange := by
  match b with
  | [] => rfl
  | [_] => rfl
  | [_, _] => rfl
  | [_, _, _] => rfl
  | [_, _, _, _] => rfl
  | [_, _, _, _, _] => rfl
  | [_, _, _, _, _, _] => rfl
  | [_, _, _, _, _, _, _] => rfl
  | _ :: _ :: _ :: _ :: _ :: _ :: _ :: _ :: _ => simp at h; omega

theorem LittleEndianUint64_isOk (b : Bytes) (h : 8 ≤ b.length) :
    ∃ amount, LittleEndianUint64 b = .ok amount := by
  match b with
  | [] => simp at h
  | [_] => simp at h
  | [_, _] => simp at h
  | [_, _, _] => simp at h
  | [_, _, _, _] => simp at h
  | [_, _, _, _, _] => simp at h
  | [_, _, _, _, _, _] => simp at h
  | [_, _, _, _, _, _, _] => simp at h
  | b0 :: b1 :: b2 :: b3 :: b4 :: b5 :: b6 :: b7 :: rest =>
    exact ⟨_, LittleEndianUint64_cons8 b0 b1 b2 b3 b4 b5 b6 b7 rest⟩

/-- The log loop stops at the first log that decodes. -/
theorem parseLogs_first (d : Decoder) (l : Log) (ev : EventFields) (post : List Log)
    (hl : d.UnpackLog l = .ok ev) :
    ∀ (pre : List Log) (depEvent : Option BindingDepositEvent) (err : Option Error),
      (∀ x, x ∈ pre → ∃ e, d.UnpackLog x = .error e) →
        parseLogs d (pre ++ l :: post) depEvent err =
          (some ⟨ev.Pubkey, ev.WithdrawalCredentials, ev.Amount, ev.Signature, ev.Index, l⟩,
            none) := by
  intro pre
  induction pre with
  | nil =>
    intro depEvent err _
    simp [parseLogs, ParseDepositEvent, hl]
  | cons x pre ih =>
    intro depEvent err hpre
    obtain ⟨e, he⟩ := hpre x (List.mem_cons_self _ _)
    simp only [List.cons_append, parseLogs, ParseDepositEvent, he]
    exact ih _ _ fun y hy => hpre y (List.mem_cons_of_mem _ hy)

/-- When no log decodes the loop ends with a nil event; the error is set
unless there was no log at all. -/
theorem parseLogs_none (d : Decoder) :
    ∀ (logs : List Log) (err : Option Error),
      (∀ x, x ∈ logs → ∃ e, d.UnpackLog x = .error e) →
        (logs = [] ∧ parseLogs d logs none err = (none, err)) ∨
        (logs ≠ [] ∧ ∃ e, parseLogs d logs none err = (none, some e)) := by
  intro logs
  induction logs with
  | nil => intro err _; exact Or.inl ⟨rfl, rfl⟩
  | cons x rest ih =>
    intro err hall
    obtain ⟨e, he⟩ := hall x (List.mem_cons_self _ _)
    refine Or.inr ⟨List.cons_ne_nil _ _, ?_⟩
    simp only [parseLogs, ParseDepositEvent, he]
    rcases ih (some e) fun y hy => hall y (List.mem_cons_of_mem _ hy) with h | h
    · exact ⟨e, h.2⟩
    · exact h.2

theorem decodeTx_no_event (d : Decoder) (txData : fetchBlockEntry)
    (hnone : ∀ x, x ∈ txData.logs → ∃ e, d.UnpackLog x = .error e) :
    ∃ p, decodeTx d txData = .error p := by
  unfold decodeTx
  split
  · exact ⟨_, rfl⟩
  · split
    · exact ⟨_, rfl⟩
    · split
      · exact ⟨_, rfl⟩
      · split
        · exact ⟨_, rfl⟩
        · exact ⟨_, rfl⟩
        · rename_i depEvent hp
          rcases parseLogs_none d txData.logs none hnone with h | h
          · rw [h.2] at hp; cases hp
          · obtain ⟨e, he⟩ := h.2
            rw [he] at hp; cases hp
      · exact ⟨_, rfl⟩

theorem decodeTx_event (d : Decoder) (txData : fetchBlockEntry) (params : List AbiValue)
    (dataRoot : { l : Bytes // l.length = 32 }) (pre post : List Log) (l : Log) (ev : EventFields)
    (hlen : 4 ≤ txData.input.length)
    (hun : d.Unpack (txData.input.drop 4) = .ok params)
    (hroot : params[3]? = some (AbiValue.bytes32 dataRoot))
    (hlogs : txData.logs = pre ++ l :: post)
    (hpre : ∀ x, x ∈ pre → ∃ e, d.UnpackLog x = .error e)
    (hl : d.UnpackLog l = .ok ev) :
    decodeTx d txData =
      match LittleEndianUint64 ev.Amount with
      | .error p => .error p
      | .ok amount =>
        .ok
          { Pubkey := hexutilEncode ev.Pubkey
            WithdrawalCredentials := hexutilEncode ev.WithdrawalCredentials
            Amount := amount
            Signature := hexutilEncode ev.Signature
            DepositDataRoot := hexutilEncode dataRoot.val } := by
  unfold decodeTx
  rw [if_neg (by omega)]
  simp only [hun, hroot, hlogs, parseLogs_first d l ev post hl pre none none hpre]

theorem decodeTx_bad_input (d : Decoder) (txData : fetchBlockEntry)
    (hbad : (∃ e, d.Unpack (txData.input.drop 4) = .error e) ∨
      ∃ params, d.Unpack (txData.input.drop 4) = .ok params ∧
        ∀ r, params[3]? ≠ some (AbiValue.bytes32 r)) :
    ∃ p, decodeTx d txData = .error p := by
  unfold decodeTx
  split
  · exact ⟨_, rfl⟩
  · split
    · exact ⟨_, rfl⟩
    · rename_i params hp
      split
      · exact ⟨_, rfl⟩
      · rename_i dataRoot hv
        rcases hbad with ⟨e, he⟩ | ⟨params1, hp1, hr⟩
        · rw [he] at hp; cases hp
        · rw [hp1] at hp
          cases hp
          exact absurd hv (hr dataRoot)
      · exact ⟨_, rfl⟩

theorem decodeTxs_error (d : Decoder) (txData : fetchBlockEntry)
    (hbad : ∃ p, decodeTx d txData = .error p) :
    ∀ (txs : List fetchBlockEntry) (output : List JSONData),
      txData ∈ txs → ∃ p, decodeTxs d txs output = .error p := by
  intro txs
  induction txs with
  | nil => intro output h; simp at h
  | cons x rest ih =>
    intro output hmem
    unfold decodeTxs
    cases hx : decodeTx d x with
    | error p => exact ⟨p, rfl⟩
    | ok r =>
      simp only
      rcases List.mem_cons.mp hmem with h | h
      · subst h
        obtain ⟨p, hp⟩ := hbad
        rw [hp] at hx
        cases hx
      · exact ih _ h

theorem decodeBlocks_error (d : Decoder) (txData : fetchBlockEntry)
    (hbad : ∃ p, decodeTx d txData = .error p) (blk : fetchBlockOutput)
    (htx : txData ∈ blk.data) :
    ∀ (blockData : List fetchBlockOutput) (output : List JSONData),
      blk ∈ blockData → ∃ p, decodeBlocks d blockData output = .error p := by
  intro blockData
  induction blockData with
  | nil => intro output h; simp at h
  | cons x rest ih =>
    intro output hmem
    unfold decodeBlocks
    cases hx : decodeTxs d x.data output with
    | error p => exact ⟨p, rfl⟩
    | ok out1 =>
      simp only
      rcases List.mem_cons.mp hmem with h | h
      · subst h
        obtain ⟨p, hp⟩ := decodeTxs_error d txData hbad _ output htx
        rw [hp] at hx
        cases hx
      · exact ih _ h

theorem digitChar_inj : ∀ m : Fin 16, ∀ n : Fin 16, Nat.digitChar m.val = Nat.digitChar n.val → m = n := by
  decide

theorem hexByte_inj (a b : Byte) (h : hexByte a = hexByte b) : a = b := by
  unfold hexByte at h
  simp only [List.cons.injEq, and_true] at h
  have h1 := digitChar_inj ⟨a.val / 16, by have := a.isLt; omega⟩ ⟨b.val / 16, by have := b.isLt; omega⟩ h.1
  have h2 := digitChar_inj ⟨a.val % 16, by omega⟩ ⟨b.val % 16, by omega⟩ h.2
  simp only [Fin.mk.injEq] at h1 h2
  apply Fin.ext
  omega

theorem hexChars_inj : ∀ (a b : Bytes), hexChars a = hexChars b → a = b := by
  intro a
  induction a with
  | nil =>
    intro b h
    cases b with
    | nil => rfl
    | cons y ys => simp [hexChars, hexByte] at h
  | cons x xs ih =>
    intro b h
    cases b with
    | nil => simp [hexChars, hexByte] at h
    | cons y ys =>
      simp only [hexChars, hexByte, List.cons_append, List.nil_append, List.cons.injEq] at h
      have hxy : x = y := hexByte_inj x y (by simp [hexByte, h.1, h.2.1])
      rw [hxy, ih ys h.2.2]

/-- The hex encoding determines the bytes. -/
theorem hexutilEncode_inj (a b : Bytes) (h : hexutilEncode a = hexutilEncode b) : a = b := by
  unfold hexutilEncode at h
  have h1 : ('0' :: 'x' :: hexChars a) = ('0' :: 'x' :: hexChars b) := by
    have := congrArg String.data h
    simpa using this
  simp only [List.cons.injEq, true_and] at h1
  exact hexChars_inj a b h1

/-! ## Scheduler invariant -/

theorem toInt64_subU64 (from_ to_ : Nat) (hle : from_ ≤ to_) (hto : to_ < 2 ^ 64)
    (hsz : to_ - from_ < 2 ^ 63) : toInt64 (subU64 to_ from_) = ((to_ - from_ : Nat) : Int) := by
  have h1 : subU64 to_ from_ = to_ - from_ := by
    unfold subU64
    rw [Nat.mod_eq_of_lt hto, Nat.mod_eq_of_lt (by omega : from_ < 2 ^ 64)]
    have : to_ + 2 ^ 64 - from_ = (to_ - from_) + 2 ^ 64 := by omega
    rw [this, Nat.add_mod_right, Nat.mod_eq_of_lt (by omega)]
  rw [h1]
  unfold toInt64
  rw [Nat.mod_eq_of_lt (by omega : to_ - from_ < 2 ^ 64), if_pos hsz]

theorem init_ok (from_ to_ : Nat) (hle : from_ ≤ to_) (hto : to_ < 2 ^ 64)
    (hsz : to_ - from_ ≤ 2 ^ 43) :
    multiThreadedFetch.init from_ to_ = .ok
      { runs := to_ - from_, pc := .gate, i := 0, activeThreads := 0,
        output := List.replicate (to_ - from_) default, tasks := [], calls := [], writes := [] } := by
  have e43 : (2 : Nat) ^ 43 = 8796093022208 := by norm_num
  have e48 : (2 : Nat) ^ 48 = 281474976710656 := by norm_num
  have e63 : (2 : Nat) ^ 63 = 9223372036854775808 := by norm_num
  rw [e43] at hsz
  have hsz63 : to_ - from_ < 2 ^ 63 := by rw [e63]; omega
  unfold multiThreadedFetch.init
  simp only [toInt64_subU64 from_ to_ hle hto hsz63, Int.toNat_ofNat]
  rw [if_neg (by unfold slotSize maxAlloc; rw [e48]; omega)]

theorem addU64_of_lt (from_ to_ j : Nat) (hto : to_ < 2 ^ 64) (hj : from_ + j < to_) :
    addU64 from_ j = from_ + j := by
  unfold addU64
  exact Nat.mod_eq_of_lt (by omega)

theorem active_set_written (l : List Task) :
    ∀ (t i : Nat), l[t]? = some ⟨i, .fetching⟩ →
      ((l.set t ⟨i, .written⟩).filter Task.active).length =
        (l.filter Task.active).length := by
  induction l with
  | nil => intro t i h; simp at h
  | cons x rest ih =>
    intro t i h
    cases t with
    | zero =>
      simp only [List.getElem?_cons_zero, Option.some.injEq] at h
      subst h
      simp [List.set, List.filter, Task.active]
    | succ t =>
      simp only [List.getElem?_cons_succ] at h
      have := ih t i h
      simp only [List.set, List.filter]
      cases Task.active x <;> simp [this]

theorem active_set_finished (l : List Task) :
    ∀ (t i : Nat), l[t]? = some ⟨i, .written⟩ →
      ((l.set t ⟨i, .finished⟩).filter Task.active).length + 1 =
        (l.filter Task.active).length := by
  induction l with
  | nil => intro t i h; simp at h
  | cons x rest ih =>
    intro t i h
    cases t with
    | zero =>
      simp only [List.getElem?_cons_zero, Option.some.injEq] at h
      subst h
      simp [List.set, List.filter, Task.active]
    | succ t =>
      simp only [List.getElem?_cons_succ] at h
      have := ih t i h
      simp only [List.set, List.filter]
      cases Task.active x <;> simp [this]

theorem callsOfWrites_append (client : Client) (fuel from_ : Nat) (filter : Address) :
    ∀ (l1 l2 : List Nat),
      callsOfWrites client fuel from_ filter (l1 ++ l2) =
        callsOfWrites client fuel from_ filter l1 ++ callsOfWrites client fuel from_ filter l2 := by
  intro l1
  induction l1 with
  | nil => intro l2; rfl
  | cons j rest ih => intro l2; simp [callsOfWrites, ih]

theorem inv_init (client : Client) (fuel from_ to_ : Nat) (filter : Address) (s0 : Sched)
    (h0 : multiThreadedFetch.init from_ to_ = .ok s0) : Inv client fuel from_ filter s0 := by
  unfold multiThreadedFetch.init at h0
  simp only at h0
  split at h0
  · cases h0
  · cases h0
    constructor <;> simp [activeTasks, callsOfWrites]

theorem inv_main (client : Client) (fuel from_ : Nat) (filter : Address) (s s1 : Sched)
    (h : Inv client fuel from_ filter s)
    (hs : step client fuel from_ filter s .main = some s1) : Inv client fuel from_ filter s1 := by
  have hmax : maxThreads = 80 := rfl
  simp only [step] at hs
  cases hpc : s.pc with
  | gate =>
    rw [hpc] at hs
    simp only at hs
    split at hs
    · rename_i hlt
      split at hs
      · cases hs
      · rename_i hge
        cases hs
        exact
          { len := h.len, idx := h.idx, le := h.le, lt := fun _ => hlt, fin := by simp,
            out := h.out, act := by simpa [activeTasks, hpc] using h.act, bound := h.bound,
            addlt := fun _ => by simpa using hge, ret := by simp, slots := h.slots,
            nodup := h.nodup, mem := h.mem, hist := h.hist }
    · rename_i hlt
      cases hs
      exact
        { len := h.len, idx := h.idx, le := h.le, lt := by simp,
          fin := fun _ => Nat.le_antisymm h.le (Nat.le_of_not_lt hlt),
          out := h.out, act := by simpa [activeTasks, hpc] using h.act, bound := h.bound,
          addlt := by simp, ret := by simp, slots := h.slots,
          nodup := h.nodup, mem := h.mem, hist := h.hist }
  | add =>
    rw [hpc] at hs
    cases hs
    have hlt := h.addlt hpc
    have hadd : mutexedUint.Add s.activeThreads 1 = s.activeThreads + 1 := by
      unfold mutexedUint.Add
      exact Nat.mod_eq_of_lt (by omega)
    have hact := h.act
    simp only [hpc] at hact
    exact
      { len := h.len, idx := h.idx, le := h.le, lt := fun _ => h.lt (Or.inl hpc), fin := by simp,
        out := h.out,
        act := by
          show mutexedUint.Add s.activeThreads 1 = activeTasks s + _
          rw [hadd]; simpa using hact
        bound := by
          show mutexedUint.Add s.activeThreads 1 ≤ _
          rw [hadd]; omega
        addlt := by simp, ret := by simp, slots := h.slots,
        nodup := h.nodup, mem := h.mem, hist := h.hist }
  | spawn =>
    rw [hpc] at hs
    cases hs
    have hlt := h.lt (Or.inr hpc)
    have hact := h.act
    simp only [hpc, if_true] at hact
    have hlen := h.len
    exact
      { len := by simp [h.len]
        idx := by
          intro t task ht
          simp only at ht
          by_cases htl : t < s.tasks.length
          · rw [List.getElem?_append_left htl] at ht
            exact h.idx t task ht
          · have hge : s.tasks.length ≤ t := Nat.le_of_not_lt htl
            rw [List.getElem?_append_right hge] at ht
            cases hd : t - s.tasks.length with
            | zero =>
              rw [hd] at ht
              simp only [List.getElem?_cons_zero, Option.some.injEq] at ht
              subst ht
              show s.i = t
              omega
            | succ m => rw [hd] at ht; simp at ht
        le := hlt
        lt := by simp
        fin := by simp
        out := h.out
        act := by
          show s.activeThreads = (List.filter Task.active (s.tasks ++ _)).length + _
          rw [List.filter_append, hact]
          simp [activeTasks, Task.active]
        bound := h.bound
        addlt := by simp
        ret := by simp
        slots := by
          intro t task ht hph
          simp only at ht
          by_cases htl : t < s.tasks.length
          · rw [List.getElem?_append_left htl] at ht
            exact h.slots t task ht hph
          · have hge : s.tasks.length ≤ t := Nat.le_of_not_lt htl
            rw [List.getElem?_append_right hge] at ht
            cases hd : t - s.tasks.length with
            | zero =>
              rw [hd] at ht
              simp only [List.getElem?_cons_zero, Option.some.injEq] at ht
              subst ht
              exact absurd rfl hph
            | succ m => rw [hd] at ht; simp at ht
        nodup := h.nodup
        mem := by
          intro j
          rw [h.mem j]
          simp only
          constructor
          · rintro ⟨task, ht, hph⟩
            have htl : j < s.tasks.length := (List.getElem?_eq_some.mp ht).1
            exact ⟨task, by rw [List.getElem?_append_left htl]; exact ht, hph⟩
          · rintro ⟨task, ht, hph⟩
            by_cases htl : j < s.tasks.length
            · rw [List.getElem?_append_left htl] at ht
              exact ⟨task, ht, hph⟩
            · have hge : s.tasks.length ≤ j := Nat.le_of_not_lt htl
              rw [List.getElem?_append_right hge] at ht
              cases hd : j - s.tasks.length with
              | zero =>
                rw [hd] at ht
                simp only [List.getElem?_cons_zero, Option.some.injEq] at ht
                subst ht
                exact absurd rfl hph
              | succ m => rw [hd] at ht; simp at ht
        hist := h.hist }
  | wait =>
    rw [hpc] at hs
    simp only at hs
    split at hs
    · cases hs
    · rename_i hz
      cases hs
      exact
        { len := h.len, idx := h.idx, le := h.le, lt := by simp,
          fin := fun _ => h.fin (Or.inl hpc),
          out := h.out, act := by simpa [activeTasks, hpc] using h.act, bound := h.bound,
          addlt := by simp, ret := fun _ => by simpa using hz, slots := h.slots,
          nodup := h.nodup, mem := h.mem, hist := h.hist }
  | returned =>
    rw [hpc] at hs
    cases hs


theorem inv_write (client : Client) (fuel from_ : Nat) (filter : Address) (s s1 : Sched) (t : Nat)
    (h : Inv client fuel from_ filter s)
    (hs : step client fuel from_ filter s (.write t) = some s1) :
    Inv client fuel from_ filter s1 := by
  simp only [step] at hs
  split at hs
  · rename_i i hti
    have hit : i = t := h.idx t _ hti
    subst hit
    have htl : i < s.tasks.length := (List.getElem?_eq_some.mp hti).1
    have hil : i < s.output.length := by
      have h1 := h.len
      have h2 := h.le
      have h3 := h.out
      omega
    split at hs
    · cases hs
    · rename_i out calls hf
      cases hs
      have hnot : i ∉ s.writes := by
        intro hm
        obtain ⟨task, ht, hph⟩ := (h.mem i).mp hm
        rw [hti] at ht
        cases ht
        exact hph rfl
      exact
        { len := by simp [h.len]
          idx := by
            intro u task hu
            rw [List.getElem?_set] at hu
            by_cases hiu : i = u
            · subst hiu
              rw [if_pos rfl, if_pos htl] at hu
              cases hu
              rfl
            · rw [if_neg hiu] at hu
              exact h.idx u task hu
          le := h.le
          lt := h.lt
          fin := h.fin
          out := by simp [h.out]
          act := by
            show s.activeThreads = (List.filter Task.active (s.tasks.set i _)).length + _
            rw [active_set_written s.tasks i i hti]
            exact h.act
          bound := h.bound
          addlt := h.addlt
          ret := h.ret
          slots := by
            intro u task hu hph
            rw [List.getElem?_set] at hu ⊢
            by_cases hiu : i = u
            · subst hiu
              exact ⟨out, calls, hf, by rw [if_pos rfl, if_pos hil]⟩
            · rw [if_neg hiu] at hu ⊢
              exact h.slots u task hu hph
          nodup := by
            show (s.writes ++ [i]).Nodup
            rw [List.nodup_append]
            refine ⟨h.nodup, List.nodup_singleton i, ?_⟩
            intro x hx hx1
            rw [List.mem_singleton] at hx1
            subst hx1
            exact hnot hx
          mem := by
            intro j
            show j ∈ s.writes ++ [i] ↔ ∃ task : Task, (s.tasks.set i _)[j]? = some task ∧ _
            rw [List.mem_append, List.mem_singleton, h.mem j]
            simp only [List.getElem?_set]
            constructor
            · rintro (⟨task, ht, hph⟩ | hji)
              · by_cases hij : i = j
                · subst hij
                  rw [hti] at ht
                  cases ht
                  exact absurd rfl hph
                · exact ⟨task, by rw [if_neg hij]; exact ht, hph⟩
              · subst hji
                exact ⟨_, by rw [if_pos rfl, if_pos htl], by simp⟩
            · rintro ⟨task, ht, hph⟩
              by_cases hij : i = j
              · exact Or.inr hij.symm
              · rw [if_neg hij] at ht
                exact Or.inl ⟨task, ht, hph⟩
          hist := by
            show s.calls ++ calls = callsOfWrites client fuel from_ filter (s.writes ++ [i])
            rw [callsOfWrites_append, ← h.hist]
            simp [callsOfWrites, scanCalls, hf] }
  · cases hs

theorem inv_finish (client : Client) (fuel from_ : Nat) (filter : Address) (s s1 : Sched) (t : Nat)
    (h : Inv client fuel from_ filter s)
    (hs : step client fuel from_ filter s (.finish t) = some s1) :
    Inv client fuel from_ filter s1 := by
  have hmax : maxThreads = 80 := rfl
  simp only [step] at hs
  split at hs
  · rename_i i hti
    cases hs
    have htl : t < s.tasks.length := (List.getElem?_eq_some.mp hti).1
    have hcnt := active_set_finished s.tasks t i hti
    have hact := h.act
    have hbound := h.bound
    have hsub : mutexedUint.Sub s.activeThreads 1 = s.activeThreads - 1 ∧ 1 ≤ s.activeThreads := by
      unfold mutexedUint.Sub
      have h1 : 1 ≤ s.activeThreads := by
        rw [hact]; unfold activeTasks; omega
      refine ⟨?_, h1⟩
      have e : (2 : Nat) ^ 64 = 18446744073709551616 := by norm_num
      rw [e]
      omega
    exact
      { len := by simp [h.len]
        idx := by
          intro u task hu
          rw [List.getElem?_set] at hu
          by_cases hiu : t = u
          · subst hiu
            rw [if_pos rfl, if_pos htl] at hu
            cases hu
            exact h.idx t ⟨i, .written⟩ hti
          · rw [if_neg hiu] at hu
            exact h.idx u task hu
        le := h.le
        lt := h.lt
        fin := h.fin
        out := h.out
        act := by
          show mutexedUint.Sub s.activeThreads 1 =
            (List.filter Task.active (s.tasks.set t _)).length + _
          rw [hsub.1, hact]
          unfold activeTasks
          show _ = _ + (if s.pc = MainPc.spawn then 1 else 0)
          omega
        bound := by
          show mutexedUint.Sub s.activeThreads 1 ≤ _
          rw [hsub.1]; omega
        addlt := by
          intro hp
          show mutexedUint.Sub s.activeThreads 1 < _
          rw [hsub.1]; omega
        ret := by
          intro hp
          show mutexedUint.Sub s.activeThreads 1 = 0
          have := h.ret hp
          rw [hsub.1]; omega
        slots := by
          intro u task hu hph
          rw [List.getElem?_set] at hu
          by_cases hiu : t = u
          · subst hiu
            exact h.slots t _ hti (by simp)
          · rw [if_neg hiu] at hu
            exact h.slots u task hu hph
        nodup := h.nodup
        mem := by
          intro j
          show j ∈ s.writes ↔ ∃ task : Task, (s.tasks.set t _)[j]? = some task ∧ _
          rw [h.mem j]
          simp only [List.getElem?_set]
          constructor
          · rintro ⟨task, ht, hph⟩
            by_cases hij : t = j
            · subst hij
              exact ⟨_, by rw [if_pos rfl, if_pos htl], by simp⟩
            · exact ⟨task, by rw [if_neg hij]; exact ht, hph⟩
          · rintro ⟨task, ht, hph⟩
            by_cases hij : t = j
            · subst hij
              exact ⟨_, hti, by simp⟩
            · rw [if_neg hij] at ht
              exact ⟨task, ht, hph⟩
        hist := h.hist }
  · cases hs

theorem inv_step (client : Client) (fuel from_ : Nat) (filter : Address) (s s1 : Sched)
    (a : Action) (h : Inv client fuel from_ filter s)
    (hs : step client fuel from_ filter s a = some s1) : Inv client fuel from_ filter s1 := by
  cases a with
  | main => exact inv_main client fuel from_ filter s s1 h hs
  | write t => exact inv_write client fuel from_ filter s s1 t h hs
  | finish t => exact inv_finish client fuel from_ filter s s1 t h hs

theorem inv_exec (client : Client) (fuel from_ : Nat) (filter : Address) :
    ∀ (acts : List Action) (s s1 : Sched), Inv client fuel from_ filter s →
      exec client fuel from_ filter acts s = some s1 → Inv client fuel from_ filter s1 := by
  intro acts
  induction acts with
  | nil =>
    intro s s1 h hs
    simp only [exec, Option.some.injEq] at hs
    subst hs
    exact h
  | cons a rest ih =>
    intro s s1 h hs
    unfold exec at hs
    split at hs
    · cases hs
    · rename_i s2 hstep
      exact ih s2 s1 (inv_step client fuel from_ filter s s2 a h hstep) hs

theorem exec_append (client : Client) (fuel from_ : Nat) (filter : Address) :
    ∀ (a b : List Action) (s s1 : Sched), exec client fuel from_ filter a s = some s1 →
      exec client fuel from_ filter (a ++ b) s = exec client fuel from_ filter b s1 := by
  intro a
  induction a with
  | nil =>
    intro b s s1 hs
    simp only [exec, Option.some.injEq] at hs
    subst hs
    rfl
  | cons x rest ih =>
    intro b s s1 hs
    unfold exec at hs
    split at hs
    · cases hs
    · rename_i s2 hstep
      simp only [List.cons_append, exec, hstep]
      exact ih b s2 s1 hs

/-- In a state where nothing is active every goroutine has finished. -/
theorem all_finished (l : List Task) (h : (l.filter Task.active).length = 0) :
    ∀ (t : Nat) (task : Task), l[t]? = some task → task.phase = .finished := by
  intro t task ht
  have hm : task ∈ l := by
    obtain ⟨hl, he⟩ := List.getElem?_eq_some.mp ht
    rw [← he]
    exact List.getElem_mem hl
  have hnil : l.filter Task.active = [] := List.length_eq_zero.mp h
  have hna : ¬ (Task.active task = true) := by
    intro ha
    have : task ∈ l.filter Task.active := List.mem_filter.mpr ⟨hm, ha⟩
    rw [hnil] at this
    cases this
  cases hp : task.phase with
  | fetching => exact absurd (by simp [Task.active, hp]) hna
  | written => exact absurd (by simp [Task.active, hp]) hna
  | finished => rfl

/-- What the scheduler hands back: one entry per index, scanned for the block
number `addU64 from_ t`. -/
theorem returned_output (client : Client) (fuel from_ : Nat) (filter : Address) (s : Sched)
    (h : Inv client fuel from_ filter s) (hret : s.pc = .returned) :
    s.output.length = s.runs ∧
    ∀ t, t < s.runs → ∃ out calls,
      fetchBlock client fuel (addU64 from_ t) filter = some (out, calls) ∧
        s.output[t]? = some out := by
  refine ⟨h.out, ?_⟩
  intro t ht
  have hz := h.ret hret
  have hact := h.act
  rw [hz, hret] at hact
  have hfin := h.fin (Or.inr hret)
  have hlen := h.len
  have htl : t < s.tasks.length := by omega
  have hget : s.tasks[t]? = some s.tasks[t] := List.getElem?_eq_getElem htl
  have hcount : (s.tasks.filter Task.active).length = 0 := by
    unfold activeTasks at hact
    omega
  have hph := all_finished s.tasks hcount t _ hget
  exact h.slots t _ hget (by rw [hph]; simp)

/-! ## Termination of the scheduler -/

theorem rank_set (l : List Task) :
    ∀ (t : Nat) (x y : Task), l[t]? = some x →
      ((l.set t y).map fun t => phaseRank t.phase).sum + phaseRank x.phase =
        (l.map fun t => phaseRank t.phase).sum + phaseRank y.phase := by
  induction l with
  | nil => intro t x y h; simp at h
  | cons z rest ih =>
    intro t x y h
    cases t with
    | zero =>
      simp only [List.getElem?_cons_zero, Option.some.injEq] at h
      subst h
      simp only [List.set, List.map_cons, List.sum_cons]
      omega
    | succ t =>
      simp only [List.getElem?_cons_succ] at h
      have := ih t x y h
      simp only [List.set, List.map_cons, List.sum_cons]
      omega

theorem step_runs (client : Client) (fuel from_ : Nat) (filter : Address) (s s1 : Sched)
    (a : Action) (hs : step client fuel from_ filter s a = some s1) : s1.runs = s.runs := by
  cases a with
  | main =>
    simp only [step] at hs
    split at hs
    · split at hs
      · split at hs
        · cases hs
        · cases hs; rfl
      · cases hs; rfl
    · cases hs; rfl
    · cases hs; rfl
    · split at hs
      · cases hs
      · cases hs; rfl
    · cases hs
  | write t =>
    simp only [step] at hs
    split at hs
    · split at hs
      · cases hs
      · cases hs; rfl
    · cases hs
  | finish t =>
    simp only [step] at hs
    split at hs
    · cases hs; rfl
    · cases hs

theorem step_decreases (client : Client) (fuel from_ : Nat) (filter : Address) (s s1 : Sched)
    (a : Action) (h : Inv client fuel from_ filter s)
    (hs : step client fuel from_ filter s a = some s1) : stepsLeft s1 < stepsLeft s := by
  cases a with
  | main =>
    simp only [step] at hs
    cases hpc : s.pc with
    | gate =>
      rw [hpc] at hs
      simp only at hs
      split at hs
      · split at hs
        · cases hs
        · cases hs
          simp [stepsLeft, hpc, pcRank]
      · cases hs
        simp [stepsLeft, hpc, pcRank]
    | add =>
      rw [hpc] at hs
      cases hs
      simp [stepsLeft, hpc, pcRank]
    | spawn =>
      rw [hpc] at hs
      cases hs
      have hlt := h.lt (Or.inr hpc)
      simp only [stepsLeft, hpc, pcRank, List.map_append, List.sum_append, List.map_cons,
        List.map_nil, List.sum_cons, List.sum_nil, phaseRank]
      omega
    | wait =>
      rw [hpc] at hs
      simp only at hs
      split at hs
      · cases hs
      · cases hs
        simp [stepsLeft, hpc, pcRank]
    | returned =>
      rw [hpc] at hs
      cases hs
  | write t =>
    simp only [step] at hs
    split at hs
    · rename_i i hti
      split at hs
      · cases hs
      · cases hs
        have hr : ((s.tasks.set t ⟨i, .written⟩).map fun t => phaseRank t.phase).sum + 2 =
            (s.tasks.map fun t => phaseRank t.phase).sum + 1 :=
          rank_set s.tasks t ⟨i, .fetching⟩ ⟨i, .written⟩ hti
        simp only [stepsLeft]
        omega
    · cases hs
  | finish t =>
    simp only [step] at hs
    split at hs
    · rename_i i hti
      cases hs
      have hr : ((s.tasks.set t ⟨i, .finished⟩).map fun t => phaseRank t.phase).sum + 1 =
          (s.tasks.map fun t => phaseRank t.phase).sum + 0 :=
        rank_set s.tasks t ⟨i, .written⟩ ⟨i, .finished⟩ hti
      simp only [stepsLeft]
      omega
    · cases hs

/-- Every schedule that can be run is at most as long as the measure allows. -/
theorem exec_length (client : Client) (fuel from_ : Nat) (filter : Address) :
    ∀ (acts : List Action) (s s1 : Sched), Inv client fuel from_ filter s →
      exec client fuel from_ filter acts s = some s1 →
        acts.length + stepsLeft s1 ≤ stepsLeft s := by
  intro acts
  induction acts with
  | nil =>
    intro s s1 _ hs
    simp only [exec, Option.some.injEq] at hs
    subst hs
    simp
  | cons a rest ih =>
    intro s s1 h hs
    unfold exec at hs
    split at hs
    · cases hs
    · rename_i s2 hstep
      have h1 := step_decreases client fuel from_ filter s s2 a h hstep
      have h2 := ih s2 s1 (inv_step client fuel from_ filter s s2 a h hstep) hs
      simp only [List.length_cons]
      omega

theorem exists_active (l : List Task) (h : 0 < (l.filter Task.active).length) :
    ∃ (t : Nat) (task : Task), l[t]? = some task ∧ task.phase ≠ .finished := by
  obtain ⟨x, hx⟩ := List.exists_mem_of_length_pos h
  obtain ⟨hxl, hxa⟩ := List.mem_filter.mp hx
  obtain ⟨t, ht, he⟩ := List.getElem_of_mem hxl
  refine ⟨t, x, ?_, ?_⟩
  · rw [List.getElem?_eq_getElem ht, he]
  · intro hp
    simp [Task.active, hp] at hxa

/-- A goroutine that has not finished can take its next step when its scan
comes back. -/
theorem task_enabled (client : Client) (fuel from_ : Nat) (filter : Address) (s : Sched)
    (h : Inv client fuel from_ filter s)
    (hlive : ∀ j, j < s.runs → ∃ out calls,
      fetchBlock client fuel (addU64 from_ j) filter = some (out, calls))
    (hpos : 0 < activeTasks s) :
    ∃ a s1, step client fuel from_ filter s a = some s1 := by
  obtain ⟨t, task, ht, hph⟩ := exists_active s.tasks hpos
  obtain ⟨i, phase⟩ := task
  have hi : i = t := h.idx t _ ht
  subst hi
  have htl : i < s.tasks.length := (List.getElem?_eq_some.mp ht).1
  have hir : i < s.runs := by
    have h1 := h.len
    have h2 := h.le
    omega
  cases phase with
  | fetching =>
    obtain ⟨out, calls, hf⟩ := hlive i hir
    refine ⟨.write i, ?_⟩
    simp only [step, ht, hf]
    exact ⟨_, rfl⟩
  | written =>
    refine ⟨.finish i, ?_⟩
    simp only [step, ht]
    exact ⟨_, rfl⟩
  | finished => exact absurd rfl hph

/-- No deadlock: before the return some action is enabled. -/
theorem progress (client : Client) (fuel from_ : Nat) (filter : Address) (s : Sched)
    (h : Inv client fuel from_ filter s)
    (hlive : ∀ j, j < s.runs → ∃ out calls,
      fetchBlock client fuel (addU64 from_ j) filter = some (out, calls))
    (hpc : s.pc ≠ .returned) :
    ∃ a s1, step client fuel from_ filter s a = some s1 := by
  have hmax : maxThreads = 80 := rfl
  have hact := h.act
  cases hp : s.pc with
  | gate =>
    by_cases hlt : s.i < s.runs
    · by_cases hge : s.activeThreads ≥ maxThreads
      · apply task_enabled client fuel from_ filter s h hlive
        rw [hp] at hact
        simp only [reduceCtorEq, if_false] at hact
        omega
      · refine ⟨.main, ?_⟩
        simp only [step, hp, if_pos hlt, if_neg hge]
        exact ⟨_, rfl⟩
    · refine ⟨.main, ?_⟩
      simp only [step, hp, if_neg hlt]
      exact ⟨_, rfl⟩
  | add =>
    refine ⟨.main, ?_⟩
    simp only [step, hp]
    exact ⟨_, rfl⟩
  | spawn =>
    refine ⟨.main, ?_⟩
    simp only [step, hp]
    exact ⟨_, rfl⟩
  | wait =>
    by_cases hz : s.activeThreads > 0
    · apply task_enabled client fuel from_ filter s h hlive
      rw [hp] at hact
      simp only [reduceCtorEq, if_false] at hact
      omega
    · refine ⟨.main, ?_⟩
      simp only [step, hp, if_neg hz]
      exact ⟨_, rfl⟩
  | returned => exact absurd hp hpc

/-- Every reachable state can be run on to the return. -/
theorem reaches_return (client : Client) (fuel from_ : Nat) (filter : Address) :
    ∀ (n : Nat) (s : Sched), stepsLeft s ≤ n → Inv client fuel from_ filter s →
      (∀ j, j < s.runs → ∃ out calls,
        fetchBlock client fuel (addU64 from_ j) filter = some (out, calls)) →
      ∃ acts s1, exec client fuel from_ filter acts s = some s1 ∧ s1.pc = .returned := by
  intro n
  induction n with
  | zero =>
    intro s hn h hlive
    by_cases hpc : s.pc = .returned
    · exact ⟨[], s, rfl, hpc⟩
    · obtain ⟨a, s1, hs⟩ := progress client fuel from_ filter s h hlive hpc
      have := step_decreases client fuel from_ filter s s1 a h hs
      omega
  | succ n ih =>
    intro s hn h hlive
    by_cases hpc : s.pc = .returned
    · exact ⟨[], s, rfl, hpc⟩
    · obtain ⟨a, s1, hs⟩ := progress client fuel from_ filter s h hlive hpc
      have hdec := step_decreases client fuel from_ filter s s1 a h hs
      have hr := step_runs client fuel from_ filter s s1 a hs
      obtain ⟨acts, s2, he, hret⟩ :=
        ih s1 (by omega) (inv_step client fuel from_ filter s s1 a h hs) (by rw [hr]; exact hlive)
      exact ⟨a :: acts, s2, by simp only [exec, hs, he], hret⟩

/-! ## Remote calls of a scan without matching transactions -/

theorem fetchBlock_no_match (client : Client) (fuel block : Nat) (filter : Address)
    (hno : ∀ txn, txn ∈ (client.blockAt block).Transactions → txn.To ≠ some filter)
    (out : fetchBlockOutput) (calls : List Call)
    (h : fetchBlock client fuel block filter = some (out, calls)) :
    out = ⟨block, []⟩ ∧
    ∃ k, calls = List.replicate k (Call.blockByNumber block false) ++
      [Call.blockByNumber block true] := by
  unfold fetchBlock at h
  cases hr : retryLoop (client.BlockByNumber block) fuel 0 with
  | none => rw [hr] at h; simp at h
  | some p =>
    obtain ⟨blk, outcomes⟩ := p
    rw [hr] at h
    obtain ⟨k, _, htr, hok, _⟩ := retryLoop_split _ fuel 0 blk outcomes hr
    have hb := (blockByNumber_ok client block _ blk hok).1
    subst hb
    have hnil : filterLoop filter (client.blockAt block).Transactions [] = [] := by
      rw [filterLoop_eq, List.nil_append, List.filter_eq_nil_iff]
      intro txn htx
      simpa using hno txn htx
    simp only [hnil, receiptLoop, Option.some.injEq, Prod.mk.injEq] at h
    refine ⟨h.1.symm, k, ?_⟩
    rw [← h.2, htr]
    simp

theorem fetchBlock_no_match_isSome (client : Client) (fuel block : Nat) (filter : Address)
    (hno : ∀ txn, txn ∈ (client.blockAt block).Transactions → txn.To ≠ some filter)
    (hblk : ∃ k, k < fuel ∧ client.blockFails block k = false) :
    ∃ out calls, fetchBlock client fuel block filter = some (out, calls) := by
  obtain ⟨k, hk, hf⟩ := hblk
  have hok : client.BlockByNumber block (0 + k) = .ok (client.blockAt block) := by
    simp [Client.BlockByNumber, hf]
  obtain ⟨blk, outcomes, hr⟩ := retryLoop_isSome _ fuel 0 k _ hk hok
  obtain ⟨k1, _, _, hok1, _⟩ := retryLoop_split _ fuel 0 blk outcomes hr
  have hb := (blockByNumber_ok client block _ blk hok1).1
  subst hb
  have hnil : filterLoop filter (client.blockAt block).Transactions [] = [] := by
    rw [filterLoop_eq, List.nil_append, List.filter_eq_nil_iff]
    intro txn htx
    simpa using hno txn htx
  unfold fetchBlock
  rw [hr]
  simp only [hnil, receiptLoop]
  exact ⟨_, _, rfl⟩

theorem count_block_calls (block m k : Nat) :
    (List.replicate k (Call.blockByNumber block false) ++ [Call.blockByNumber block true]).count
      (Call.blockByNumber m true) = if block = m then 1 else 0 := by
  rw [List.count_append, List.count_replicate]
  by_cases h : block = m
  · subst h
    simp
  · have h1 : ¬ (Call.blockByNumber block true = Call.blockByNumber m true) := by
      intro e; cases e; exact h rfl
    simp [h, h1, List.count_cons]

/-- The calls of the scans written so far, when no scan meets a matching
transaction: block fetches only, one successful fetch per written slot. -/
theorem callsOfWrites_no_match (client : Client) (fuel from_ : Nat) (filter : Address) :
    ∀ (writes : List Nat),
      (∀ j, j ∈ writes → ∃ k, scanCalls client fuel from_ filter j =
        List.replicate k (Call.blockByNumber (from_ + j) false) ++
          [Call.blockByNumber (from_ + j) true]) →
      (∀ m, (callsOfWrites client fuel from_ filter writes).count (Call.blockByNumber m true) =
        writes.countP fun j => decide (from_ + j = m)) ∧
      (∀ c, c ∈ callsOfWrites client fuel from_ filter writes →
        ∃ j ok, j ∈ writes ∧ c = Call.blockByNumber (from_ + j) ok) := by
  intro writes
  induction writes with
  | nil => intro _; simp [callsOfWrites]
  | cons j rest ih =>
    intro hshape
    obtain ⟨k, hk⟩ := hshape j (List.mem_cons_self _ _)
    obtain ⟨ih1, ih2⟩ := ih fun x hx => hshape x (List.mem_cons_of_mem _ hx)
    constructor
    · intro m
      simp only [callsOfWrites, List.count_append, hk, List.countP_cons, ih1 m]
      have := count_block_calls (from_ + j) m k
      rw [List.count_append] at this
      rw [this]
      by_cases h : from_ + j = m <;> simp [h, Nat.add_comm]
    · intro c hc
      simp only [callsOfWrites, List.mem_append] at hc
      rcases hc with hc | hc
      · rw [hk] at hc
        simp only [List.mem_append, List.mem_replicate, List.mem_singleton] at hc
        rcases hc with ⟨_, hc⟩ | hc
        · exact ⟨j, false, List.mem_cons_self _ _, hc⟩
        · exact ⟨j, true, List.mem_cons_self _ _, hc⟩
      · obtain ⟨x, ok, hx, hcx⟩ := ih2 c hc
        exact ⟨x, ok, List.mem_cons_of_mem _ hx, hcx⟩

theorem decodeBlocks_empty (d : Decoder) :
    ∀ (blockData : List fetchBlockOutput) (output : List JSONData),
      (∀ blk, blk ∈ blockData → blk.data = []) → decodeBlocks d blockData output = .ok output := by
  intro blockData
  induction blockData with
  | nil => intro output _; rfl
  | cons blk rest ih =>
    intro output h
    unfold decodeBlocks
    rw [h blk (List.mem_cons_self _ _)]
    simp only [decodeTxs]
    exact ih output fun b hb => h b (List.mem_cons_of_mem _ hb)

/-- Slots are only written by goroutines that exist. -/
theorem writes_lt (client : Client) (fuel from_ : Nat) (filter : Address) (s : Sched)
    (h : Inv client fuel from_ filter s) (j : Nat) (hj : j ∈ s.writes) : j < s.runs := by
  obtain ⟨task, ht, _⟩ := (h.mem j).mp hj
  have htl : j < s.tasks.length := (List.getElem?_eq_some.mp ht).1
  have h1 := h.len
  have h2 := h.le
  omega

/-- At the return every index has been written. -/
theorem writes_returned (client : Client) (fuel from_ : Nat) (filter : Address) (s : Sched)
    (h : Inv client fuel from_ filter s) (hret : s.pc = .returned) (j : Nat) (hj : j < s.runs) :
    j ∈ s.writes := by
  have hz := h.ret hret
  have hact := h.act
  rw [hz, hret] at hact
  have hfin := h.fin (Or.inr hret)
  have hlen := h.len
  have htl : j < s.tasks.length := by omega
  have hget : s.tasks[j]? = some s.tasks[j] := List.getElem?_eq_getElem htl
  have hcount : (s.tasks.filter Task.active).length = 0 := by
    unfold activeTasks at hact
    omega
  have hph := all_finished s.tasks hcount j _ hget
  exact (h.mem j).mpr ⟨_, hget, by rw [hph]; simp⟩

theorem exec_runs (client : Client) (fuel from_ : Nat) (filter : Address) :
    ∀ (acts : List Action) (s s1 : Sched),
      exec client fuel from_ filter acts s = some s1 → s1.runs = s.runs := by
  intro acts
  induction acts with
  | nil =>
    intro s s1 hs
    simp only [exec, Option.some.injEq] at hs
    subst hs
    rfl
  | cons a rest ih =>
    intro s s1 hs
    unfold exec at hs
    split at hs
    · cases hs
    · rename_i s2 hstep
      rw [ih s2 s1 hs, step_runs client fuel from_ filter s s2 a hstep]

/-- The returned slice of a range `from_ ≤ to_`: slot `i` holds the scan of
block `from_ + i`. -/
theorem returned_range (client : Client) (fuel from_ to_ : Nat) (filter : Address)
    (hle : from_ ≤ to_) (hto : to_ < 2 ^ 64) (hsz : to_ - from_ ≤ 2 ^ 43)
    (acts : List Action) (s0 s : Sched)
    (h0 : multiThreadedFetch.init from_ to_ = .ok s0)
    (he : exec client fuel from_ filter acts s0 = some s) (hret : s.pc = .returned) :
    s.output.length = to_ - from_ ∧
    ∀ i, i < to_ - from_ → ∃ out calls,
      fetchBlock client fuel (from_ + i) filter = some (out, calls) ∧ s.output[i]? = some out := by
  have hinv := inv_exec client fuel from_ filter acts s0 s
    (inv_init client fuel from_ to_ filter s0 h0) he
  have hruns : s.runs = to_ - from_ := by
    rw [exec_runs client fuel from_ filter acts s0 s he]
    rw [init_ok from_ to_ hle hto hsz] at h0
    cases h0
    rfl
  obtain ⟨h1, h2⟩ := returned_output client fuel from_ filter s hinv hret
  rw [hruns] at h1 h2
  refine ⟨h1, ?_⟩
  intro i hi
  obtain ⟨out, calls, hf, ho⟩ := h2 i hi
  rw [addU64_of_lt from_ to_ i hto (by omega)] at hf
  exact ⟨out, calls, hf, ho⟩

theorem multiThreadedFetch_some (client : Client) (fuel from_ to_ : Nat) (filter : Address)
    (s0 : Sched) (h0 : multiThreadedFetch.init from_ to_ = .ok s0)
    (acts : List Action) (r : Except Panic (List fetchBlockOutput))
    (h : multiThreadedFetch client fuel from_ to_ filter acts = some r) :
    ∃ s, exec client fuel from_ filter acts s0 = some s ∧ s.pc = .returned ∧ r = .ok s.output := by
  unfold multiThreadedFetch at h
  rw [h0] at h
  simp only at h
  split at h
  · cases h
  · rename_i s he
    split at h
    · rename_i hret
      cases h
      exact ⟨s, he, hret, rfl⟩
    · cases h

theorem multiThreadedFetch_of_exec (client : Client) (fuel from_ to_ : Nat) (filter : Address)
    (s0 s : Sched) (h0 : multiThreadedFetch.init from_ to_ = .ok s0)
    (acts : List Action) (he : exec client fuel from_ filter acts s0 = some s)
    (hret : s.pc = .returned) :
    multiThreadedFetch client fuel from_ to_ filter acts = some (.ok s.output) := by
  unfold multiThreadedFetch
  rw [h0]
  simp only [he, hret, if_true]

/-- Every run of the scheduler can be continued to its return, provided the
scans of the range come back. -/
theorem extend_to_return (client : Client) (fuel from_ to_ : Nat) (filter : Address)
    (hle : from_ ≤ to_) (hto : to_ < 2 ^ 64) (hsz : to_ - from_ ≤ 2 ^ 43)
    (hlive : ∀ n, from_ ≤ n → n < to_ → ∃ out calls,
      fetchBlock client fuel n filter = some (out, calls))
    (acts : List Action) (s0 s : Sched)
    (h0 : multiThreadedFetch.init from_ to_ = .ok s0)
    (he : exec client fuel from_ filter acts s0 = some s) :
    ∃ more s1, exec client fuel from_ filter (acts ++ more) s0 = some s1 ∧ s1.pc = .returned := by
  have hinv := inv_exec client fuel from_ filter acts s0 s
    (inv_init client fuel from_ to_ filter s0 h0) he
  have hruns : s.runs = to_ - from_ := by
    rw [exec_runs client fuel from_ filter acts s0 s he]
    rw [init_ok from_ to_ hle hto hsz] at h0
    cases h0
    rfl
  have hl : ∀ j, j < s.runs → ∃ out calls,
      fetchBlock client fuel (addU64 from_ j) filter = some (out, calls) := by
    intro j hj
    rw [hruns] at hj
    rw [addU64_of_lt from_ to_ j hto (by omega)]
    exact hlive (from_ + j) (by omega) (by omega)
  obtain ⟨more, s1, h1, hret⟩ := reaches_return client fuel from_ filter _ s (Nat.le_refl _) hinv hl
  exact ⟨more, s1, by rw [exec_append client fuel from_ filter acts more s0 s he]; exact h1, hret⟩

theorem schedule_length (client : Client) (fuel from_ to_ : Nat) (filter : Address)
    (hle : from_ ≤ to_) (hto : to_ < 2 ^ 64) (hsz : to_ - from_ ≤ 2 ^ 43)
    (acts : List Action) (s0 s : Sched)
    (h0 : multiThreadedFetch.init from_ to_ = .ok s0)
    (he : exec client fuel from_ filter acts s0 = some s) :
    acts.length ≤ 5 * (to_ - from_) + 3 := by
  have hlen := exec_length client fuel from_ filter acts s0 s
    (inv_init client fuel from_ to_ filter s0 h0) he
  rw [init_ok from_ to_ hle hto hsz] at h0
  cases h0
  simp only [stepsLeft, pcRank, List.map_nil, List.sum_nil] at hlen
  omega

/-! ## Order of the records -/

theorem decodeTxs_ok (d : Decoder) :
    ∀ (txs : List fetchBlockEntry) (output out1 : List JSONData),
      decodeTxs d txs output = .ok out1 →
        ∃ recs, out1 = output ++ recs ∧ txs.map (decodeTx d) = recs.map Except.ok := by
  intro txs
  induction txs with
  | nil =>
    intro output out1 h
    simp only [decodeTxs, Except.ok.injEq] at h
    exact ⟨[], by simp [h], rfl⟩
  | cons tx rest ih =>
    intro output out1 h
    unfold decodeTxs at h
    cases hx : decodeTx d tx with
    | error p => rw [hx] at h; cases h
    | ok r =>
      rw [hx] at h
      obtain ⟨recs, h1, h2⟩ := ih _ _ h
      exact ⟨r :: recs, by simp [h1], by simp [hx, h2]⟩

theorem decodeBlocks_ok (d : Decoder) :
    ∀ (blockData : List fetchBlockOutput) (output out1 : List JSONData),
      decodeBlocks d blockData output = .ok out1 →
        ∃ recs, out1 = output ++ recs ∧
          ((blockData.map fun blk => blk.data).flatten).map (decodeTx d) =
            recs.map Except.ok := by
  intro blockData
  induction blockData with
  | nil =>
    intro output out1 h
    simp only [decodeBlocks, Except.ok.injEq] at h
    exact ⟨[], by simp [h], rfl⟩
  | cons blk rest ih =>
    intro output out1 h
    unfold decodeBlocks at h
    cases hx : decodeTxs d blk.data output with
    | error p => rw [hx] at h; cases h
    | ok out2 =>
      rw [hx] at h
      obtain ⟨recs1, h1, h2⟩ := decodeTxs_ok d _ _ _ hx
      obtain ⟨recs2, h3, h4⟩ := ih _ _ h
      refine ⟨recs1 ++ recs2, by simp [h3, h1], ?_⟩
      simp only [List.map_cons, List.flatten_cons, List.map_append, h2, h4]

theorem decodeTxs_isOk (d : Decoder) :
    ∀ (txs : List fetchBlockEntry) (output : List JSONData),
      (∀ tx, tx ∈ txs → ∃ r, decodeTx d tx = .ok r) →
        ∃ out1, decodeTxs d txs output = .ok out1 := by
  intro txs
  induction txs with
  | nil => intro output _; exact ⟨output, rfl⟩
  | cons tx rest ih =>
    intro output h
    obtain ⟨r, hr⟩ := h tx (List.mem_cons_self _ _)
    unfold decodeTxs
    rw [hr]
    exact ih _ fun x hx => h x (List.mem_cons_of_mem _ hx)

theorem decodeBlocks_isOk (d : Decoder) :
    ∀ (blockData : List fetchBlockOutput) (output : List JSONData),
      (∀ blk, blk ∈ blockData → ∀ tx, tx ∈ blk.data → ∃ r, decodeTx d tx = .ok r) →
        ∃ out1, decodeBlocks d blockData output = .ok out1 := by
  intro blockData
  induction blockData with
  | nil => intro output _; exact ⟨output, rfl⟩
  | cons blk rest ih =>
    intro output h
    obtain ⟨out2, h2⟩ := decodeTxs_isOk d blk.data output (h blk (List.mem_cons_self _ _))
    unfold decodeBlocks
    rw [h2]
    exact ih _ fun b hb => h b (List.mem_cons_of_mem _ hb)

/-- The run decodes what the scheduler handed back. -/
theorem mainRun_of_fetch (client : Client) (d : Decoder) (fuel from_ to_ : Nat)
    (filter : Address) (acts : List Action) (blockData : List fetchBlockOutput)
    (hrun : multiThreadedFetch client fuel from_ to_ filter acts = some (.ok blockData)) :
    mainRun client d fuel from_ to_ filter acts = some (decodeBlocks d blockData []) := by
  unfold mainRun
  rw [hrun]

/-- A range whose allocation succeeds has at most `2^43` blocks. -/
theorem init_size (from_ to_ : Nat) (hle : from_ ≤ to_) (hto : to_ < 2 ^ 64) (s0 : Sched)
    (h0 : multiThreadedFetch.init from_ to_ = .ok s0) : to_ - from_ ≤ 2 ^ 43 := by
  by_contra hsz
  have e43 : (2 : Nat) ^ 43 = 8796093022208 := by norm_num
  have e48 : (2 : Nat) ^ 48 = 281474976710656 := by norm_num
  have e63 : (2 : Nat) ^ 63 = 9223372036854775808 := by norm_num
  have e64 : (2 : Nat) ^ 64 = 18446744073709551616 := by norm_num
  have e : (2 : Int) ^ 64 = 18446744073709551616 := by norm_num
  have h1 : subU64 to_ from_ = to_ - from_ := by
    unfold subU64
    rw [Nat.mod_eq_of_lt hto, Nat.mod_eq_of_lt (by omega : from_ < 2 ^ 64)]
    have : to_ + 2 ^ 64 - from_ = (to_ - from_) + 2 ^ 64 := by omega
    rw [this, Nat.add_mod_right, Nat.mod_eq_of_lt (by omega)]
  rw [e43] at hsz
  rw [e64] at hto
  unfold multiThreadedFetch.init at h0
  simp only [h1] at h0
  have hbad : toInt64 (to_ - from_) < 0 ∨
      (toInt64 (to_ - from_)).toNat * slotSize > maxAlloc := by
    unfold toInt64 slotSize maxAlloc
    rw [e64, e63, e48, e]
    rw [Nat.mod_eq_of_lt (by omega : to_ - from_ < 18446744073709551616)]
    by_cases h63 : to_ - from_ < 9223372036854775808
    · right
      rw [if_pos h63, Int.toNat_ofNat]
      omega
    · left
      rw [if_neg h63]
      omega
  rw [if_pos hbad] at h0
  cases h0

/-- The returned slice of a range `from_ ≤ to_`, by block number. -/
theorem fetch_blocks (client : Client) (fuel from_ to_ : Nat) (filter : Address)
    (hle : from_ ≤ to_) (hto : to_ < 2 ^ 64) (acts : List Action)
    (blockData : List fetchBlockOutput)
    (hrun : multiThreadedFetch client fuel from_ to_ filter acts = some (.ok blockData)) :
    blockData.length = to_ - from_ ∧
    ∀ i, i < to_ - from_ → ∃ blk, blockData[i]? = some blk ∧ blk.block = from_ + i := by
  cases h0 : multiThreadedFetch.init from_ to_ with
  | error p =>
    unfold multiThreadedFetch at hrun
    rw [h0] at hrun
    cases hrun
  | ok s0 =>
    have hsz := init_size from_ to_ hle hto s0 h0
    obtain ⟨s, he, hret, hrs⟩ :=
      multiThreadedFetch_some client fuel from_ to_ filter s0 h0 acts _ hrun
    cases hrs
    obtain ⟨hlen, hslot⟩ :=
      returned_range client fuel from_ to_ filter hle hto hsz acts s0 s h0 he hret
    refine ⟨hlen, ?_⟩
    intro i hi
    obtain ⟨out, calls, hf, ho⟩ := hslot i hi
    exact ⟨out, ho, (fetchBlock_data client fuel (from_ + i) filter out calls hf).1⟩

/-! ## First decodable log, short inputs, amount payloads -/

theorem decodeTx_logs_congr (d : Decoder) (hash : Hash) (input : Bytes) (logs1 logs2 : List Log)
    (h : parseLogs d logs1 none none = parseLogs d logs2 none none) :
    decodeTx d ⟨hash, input, logs1⟩ = decodeTx d ⟨hash, input, logs2⟩ := by
  unfold decodeTx
  simp only [h]

theorem decodeTx_short_input (d : Decoder) (txData : fetchBlockEntry)
    (h : txData.input.length < 4) : decodeTx d txData = .error .sliceBounds := by
  unfold decodeTx
  rw [if_pos h]

/-! ## Determinism, slot writes, counter -/

/-- The result of a scan is a function of the ledger alone. -/
theorem fetchBlock_ledger (c1 c2 : Client) (f1 f2 block : Nat) (filter : Address)
    (hb : c1.blockAt = c2.blockAt) (hr : c1.receiptOf = c2.receiptOf)
    (o1 o2 : fetchBlockOutput) (k1 k2 : List Call)
    (h1 : fetchBlock c1 f1 block filter = some (o1, k1))
    (h2 : fetchBlock c2 f2 block filter = some (o2, k2)) : o1 = o2 := by
  obtain ⟨hb1, hd1⟩ := fetchBlock_data c1 f1 block filter o1 k1 h1
  obtain ⟨hb2, hd2⟩ := fetchBlock_data c2 f2 block filter o2 k2 h2
  rw [hb, hr] at hd1
  cases o1
  cases o2
  simp only at hb1 hb2 hd1 hd2
  rw [hb1, hb2, hd1, hd2]

/-- Two returns of the scheduler over the same ledger hand back the same slice. -/
theorem fetch_deterministic (c1 c2 : Client) (f1 f2 from_ to_ : Nat) (filter : Address)
    (a1 a2 : List Action) (hb : c1.blockAt = c2.blockAt) (hr : c1.receiptOf = c2.receiptOf)
    (r1 r2 : Except Panic (List fetchBlockOutput))
    (h1 : multiThreadedFetch c1 f1 from_ to_ filter a1 = some r1)
    (h2 : multiThreadedFetch c2 f2 from_ to_ filter a2 = some r2) : r1 = r2 := by
  cases h0 : multiThreadedFetch.init from_ to_ with
  | error p =>
    unfold multiThreadedFetch at h1 h2
    rw [h0] at h1 h2
    cases h1
    cases h2
    rfl
  | ok s0 =>
    obtain ⟨s1, he1, hret1, hrs1⟩ := multiThreadedFetch_some c1 f1 from_ to_ filter s0 h0 a1 r1 h1
    obtain ⟨s2, he2, hret2, hrs2⟩ := multiThreadedFetch_some c2 f2 from_ to_ filter s0 h0 a2 r2 h2
    have hi1 := inv_exec c1 f1 from_ filter a1 s0 s1 (inv_init c1 f1 from_ to_ filter s0 h0) he1
    have hi2 := inv_exec c2 f2 from_ filter a2 s0 s2 (inv_init c2 f2 from_ to_ filter s0 h0) he2
    have hr1 := exec_runs c1 f1 from_ filter a1 s0 s1 he1
    have hr2 := exec_runs c2 f2 from_ filter a2 s0 s2 he2
    obtain ⟨hl1, hs1⟩ := returned_output c1 f1 from_ filter s1 hi1 hret1
    obtain ⟨hl2, hs2⟩ := returned_output c2 f2 from_ filter s2 hi2 hret2
    rw [hrs1, hrs2]
    congr 1
    apply List.ext_getElem?
    intro n
    by_cases hn : n < s0.runs
    · obtain ⟨o1, k1, hf1, ho1⟩ := hs1 n (by omega)
      obtain ⟨o2, k2, hf2, ho2⟩ := hs2 n (by omega)
      rw [ho1, ho2, fetchBlock_ledger c1 c2 f1 f2 _ filter hb hr o1 o2 k1 k2 hf1 hf2]
    · rw [List.getElem?_eq_none (by omega), List.getElem?_eq_none (by omega)]

theorem main_deterministic (c1 c2 : Client) (d : Decoder) (f1 f2 from_ to_ : Nat)
    (filter : Address) (a1 a2 : List Action) (hb : c1.blockAt = c2.blockAt)
    (hr : c1.receiptOf = c2.receiptOf) (r1 r2 : Except Panic (List JSONData))
    (h1 : mainRun c1 d f1 from_ to_ filter a1 = some r1)
    (h2 : mainRun c2 d f2 from_ to_ filter a2 = some r2) : r1 = r2 := by
  unfold mainRun at h1 h2
  cases hm1 : multiThreadedFetch c1 f1 from_ to_ filter a1 with
  | none => rw [hm1] at h1; cases h1
  | some x1 =>
    cases hm2 : multiThreadedFetch c2 f2 from_ to_ filter a2 with
    | none => rw [hm2] at h2; cases h2
    | some x2 =>
      have hx := fetch_deterministic c1 c2 f1 f2 from_ to_ filter a1 a2 hb hr x1 x2 hm1 hm2
      subst hx
      rw [hm1] at h1
      rw [hm2] at h2
      rw [h1] at h2
      cases h2
      rfl

/-- Frame of the dispatcher's steps: slots and write history stay as they are. -/
theorem step_main_frame (client : Client) (fuel from_ : Nat) (filter : Address) (s s1 : Sched)
    (hs : step client fuel from_ filter s .main = some s1) :
    s1.output = s.output ∧ s1.writes = s.writes := by
  simp only [step] at hs
  split at hs
  · split at hs
    · split at hs
      · cases hs
      · cases hs; exact ⟨rfl, rfl⟩
    · cases hs; exact ⟨rfl, rfl⟩
  · cases hs; exact ⟨rfl, rfl⟩
  · cases hs; exact ⟨rfl, rfl⟩
  · split at hs
    · cases hs
    · cases hs; exact ⟨rfl, rfl⟩
  · cases hs

/-- Frame of a decrement: slots and write history stay as they are. -/
theorem step_finish_frame (client : Client) (fuel from_ : Nat) (filter : Address) (s s1 : Sched)
    (t : Nat) (hs : step client fuel from_ filter s (.finish t) = some s1) :
    s1.output = s.output ∧ s1.writes = s.writes ∧
    ∃ i, s.tasks[t]? = some ⟨i, .written⟩ ∧
      s1.activeThreads = mutexedUint.Sub s.activeThreads 1 := by
  simp only [step] at hs
  split at hs
  · rename_i i hti
    cases hs
    exact ⟨rfl, rfl, i, hti, rfl⟩
  · cases hs

/-- Effect of a slot write: the goroutine stores the scan of its block at the
index it was given and nowhere else. -/
theorem step_write_frame (client : Client) (fuel from_ : Nat) (filter : Address) (s s1 : Sched)
    (t : Nat) (hs : step client fuel from_ filter s (.write t) = some s1) :
    ∃ i out calls, s.tasks[t]? = some ⟨i, .fetching⟩ ∧
      fetchBlock client fuel (addU64 from_ i) filter = some (out, calls) ∧
      s1.output = s.output.set i out ∧ s1.writes = s.writes ++ [i] ∧
      (∀ j, j ≠ i → s1.output[j]? = s.output[j]?) ∧
      s1.activeThreads = s.activeThreads := by
  simp only [step] at hs
  split at hs
  · rename_i i hti
    split at hs
    · cases hs
    · rename_i out calls hf
      cases hs
      refine ⟨i, out, calls, hti, hf, rfl, rfl, ?_, rfl⟩
      intro j hj
      show (s.output.set i out)[j]? = _
      rw [List.getElem?_set, if_neg (fun h => hj h.symm)]
  · cases hs

theorem active_add_done (l : List Task) :
    (l.filter Task.active).length + (l.filter Task.done).length = l.length := by
  induction l with
  | nil => rfl
  | cons x rest ih =>
    obtain ⟨i, ph⟩ := x
    cases ph <;> simp [List.filter, Task.active, Task.done] <;> omega

/-- The counter is the number of dispatched tasks minus the number of tasks
that have decremented it. -/
theorem counter_eq (client : Client) (fuel from_ : Nat) (filter : Address) (s : Sched)
    (h : Inv client fuel from_ filter s) :
    s.activeThreads + decremented s = dispatched s ∧ decremented s ≤ dispatched s := by
  have h1 := h.act
  have h2 := active_add_done s.tasks
  unfold activeTasks at h1
  unfold decremented dispatched
  constructor <;> omega

/-- For `from_ > to_` at most `2^63` apart the run count is the negative number
`to_ - from_`. -/
theorem toInt64_neg (from_ to_ : Nat) (hlt : to_ < from_) (hfrom : from_ < 2 ^ 64)
    (hd : from_ - to_ ≤ 2 ^ 63) :
    toInt64 (subU64 to_ from_) = (to_ : Int) - (from_ : Int) := by
  have e2 : (2 : Nat) ^ 64 = 18446744073709551616 := by norm_num
  have e3 : (2 : Nat) ^ 63 = 9223372036854775808 := by norm_num
  have e : (2 : Int) ^ 64 = 18446744073709551616 := by norm_num
  rw [e2] at hfrom
  rw [e3] at hd
  have h1 : subU64 to_ from_ = to_ + 18446744073709551616 - from_ := by
    unfold subU64
    rw [e2]
    omega
  rw [h1]
  unfold toInt64
  rw [e2, e3, e]
  have h2 : (to_ + 18446744073709551616 - from_) % 18446744073709551616 =
      to_ + 18446744073709551616 - from_ := Nat.mod_eq_of_lt (by omega)
  rw [h2, if_neg (by omega)]
  omega

theorem init_neg (from_ to_ : Nat) (hlt : to_ < from_) (hfrom : from_ < 2 ^ 64)
    (hd : from_ - to_ ≤ 2 ^ 63) : multiThreadedFetch.init from_ to_ = .error .makeslice := by
  unfold multiThreadedFetch.init
  simp only [toInt64_neg from_ to_ hlt hfrom hd]
  rw [if_pos (Or.inl (by omega))]

/-- Reachable states of a range `from_ ≤ to_` satisfy the invariant and keep the
run count `to_ - from_`. -/
theorem reach_inv (client : Client) (fuel from_ to_ : Nat) (filter : Address)
    (hle : from_ ≤ to_) (hto : to_ < 2 ^ 64)
    (acts : List Action) (s0 s : Sched)
    (h0 : multiThreadedFetch.init from_ to_ = .ok s0)
    (he : exec client fuel from_ filter acts s0 = some s) :
    Inv client fuel from_ filter s ∧ s.runs = to_ - from_ := by
  refine ⟨inv_exec client fuel from_ filter acts s0 s
    (inv_init client fuel from_ to_ filter s0 h0) he, ?_⟩
  rw [exec_runs client fuel from_ filter acts s0 s he]
  rw [init_ok from_ to_ hle hto (init_size from_ to_ hle hto s0 h0)] at h0
  cases h0
  rfl

/-- A decrement finds the counter positive and does not wrap. -/
theorem sub_no_wrap (client : Client) (fuel from_ : Nat) (filter : Address) (s : Sched)
    (h : Inv client fuel from_ filter s) (t i : Nat)
    (hti : s.tasks[t]? = some ⟨i, .written⟩) :
    0 < s.activeThreads ∧ mutexedUint.Sub s.activeThreads 1 = s.activeThreads - 1 := by
  have hmax : maxThreads = 80 := rfl
  have hcnt := active_set_finished s.tasks t i hti
  have hact := h.act
  have hbound := h.bound
  have h1 : 1 ≤ s.activeThreads := by
    rw [hact]; unfold activeTasks; omega
  refine ⟨h1, ?_⟩
  unfold mutexedUint.Sub
  have e : (2 : Nat) ^ 64 = 18446744073709551616 := by norm_num
  rw [e]
  omega

/-- An increment does not wrap. -/
theorem add_no_wrap (client : Client) (fuel from_ : Nat) (filter : Address) (s : Sched)
    (h : Inv client fuel from_ filter s) :
    mutexedUint.Add s.activeThreads 1 = s.activeThreads + 1 := by
  have hmax : maxThreads = 80 := rfl
  have hbound := h.bound
  unfold mutexedUint.Add
  have e : (2 : Nat) ^ 64 = 18446744073709551616 := by norm_num
  rw [e]
  omega


/-! ## Claims -/

/-- C1 (amended): for a range with `from_ ≤ to_` and `to_ - from_ ≤ 2^43` (the
longest slice of block results the allocation accepts), under every
schedule (every completion order of the block scans) a call of
`multiThreadedFetch` that comes back hands back exactly `to_ - from_` entries,
entry `i` carrying block number `from_ + i`, none carrying `to_`; the call gets
past its allocation, no schedule runs for more than `5 * (to_ - from_) + 3`
steps, and when the scans of the range come back every run can be continued to
the return. -/
theorem C1_multiThreadedFetch_complete (client : Client) (fuel from_ to_ : Nat)
    (filter : Address) (hle : from_ ≤ to_) (hto : to_ < 2 ^ 64) (hsz : to_ - from_ ≤ 2 ^ 43) :
    (∀ acts r, multiThreadedFetch client fuel from_ to_ filter acts = some r →
      ∃ out : List fetchBlockOutput, r = .ok out ∧ out.length = to_ - from_ ∧
        (∀ i, i < to_ - from_ → ∃ blk, out[i]? = some blk ∧ blk.block = from_ + i) ∧
        ∀ blk, blk ∈ out → blk.block ≠ to_) ∧
    ∃ s0, multiThreadedFetch.init from_ to_ = .ok s0 ∧
      (∀ acts s, exec client fuel from_ filter acts s0 = some s →
        acts.length ≤ 5 * (to_ - from_) + 3) ∧
      ((∀ n, from_ ≤ n → n < to_ → ∃ out calls,
          fetchBlock client fuel n filter = some (out, calls)) →
        ∀ acts s, exec client fuel from_ filter acts s0 = some s →
          ∃ more out,
            multiThreadedFetch client fuel from_ to_ filter (acts ++ more) = some (.ok out)) := by
  have h0 := init_ok from_ to_ hle hto hsz
  refine ⟨?_, _, h0, ?_, ?_⟩
  · intro acts r hr
    obtain ⟨s, he, hret, hrs⟩ := multiThreadedFetch_some client fuel from_ to_ filter _
      h0 acts r hr
    obtain ⟨hlen, hslot⟩ := returned_range client fuel from_ to_ filter hle hto hsz acts _ s
      h0 he hret
    have hblock : ∀ i, i < to_ - from_ →
        ∃ blk, s.output[i]? = some blk ∧ blk.block = from_ + i := by
      intro i hi
      obtain ⟨out, calls, hf, ho⟩ := hslot i hi
      exact ⟨out, ho, (fetchBlock_data client fuel (from_ + i) filter out calls hf).1⟩
    refine ⟨s.output, hrs, hlen, hblock, ?_⟩
    intro blk hmem hb
    obtain ⟨i, hi, hget⟩ := List.getElem_of_mem hmem
    obtain ⟨blk1, h1, h2⟩ := hblock i (by omega)
    rw [List.getElem?_eq_getElem hi, hget] at h1
    cases h1
    omega
  · intro acts s he
    exact schedule_length client fuel from_ to_ filter hle hto hsz acts _ s h0 he
  · intro hlive acts s he
    obtain ⟨more, s1, h1, hret⟩ :=
      extend_to_return client fuel from_ to_ filter hle hto hsz hlive acts _ s h0 he
    exact ⟨more, s1.output,
      multiThreadedFetch_of_exec client fuel from_ to_ filter _ s1 h0 _ h1 hret⟩

/-- C1 at the example ledger: blocks 10 and 11, the second scan completing
first. -/
theorem C1_witness :
    multiThreadedFetch exClient 5 10 12 7 exSchedule =
      some (.ok [⟨10, [exEntry]⟩, ⟨11, [⟨5, [1, 2, 3, 4, 0], [exLog]⟩]⟩]) ∧
    ∃ out : List fetchBlockOutput,
      (Except.ok [⟨10, [exEntry]⟩, ⟨11, [⟨5, [1, 2, 3, 4, 0], [exLog]⟩]⟩] :
        Except Panic (List fetchBlockOutput)) = .ok out ∧ out.length = 12 - 10 ∧
        (∀ i, i < 12 - 10 → ∃ blk, out[i]? = some blk ∧ blk.block = 10 + i) ∧
        ∀ blk, blk ∈ out → blk.block ≠ 12 :=
  ⟨rfl, (C1_multiThreadedFetch_complete exClient 5 10 12 7 (by decide) (by norm_num)
    (by norm_num)).1 exSchedule _ rfl⟩

/-- C1 as first stated fails for the range of `2^43 + 1` blocks from block 0: it
meets `from ≤ to` and `to - from < 2^63`, yet its slots exceed the allocation
limit, the allocation panics under every schedule and no slice is handed back. -/
theorem C1_counterexample :
    ((0 : Nat) ≤ 2 ^ 43 + 1 ∧ 2 ^ 43 + 1 < 2 ^ 64 ∧ 2 ^ 43 + 1 - 0 < 2 ^ 63) ∧
    multiThreadedFetch.init 0 (2 ^ 43 + 1) = .error .makeslice ∧
    (∀ acts, multiThreadedFetch exEmptyClient 5 0 (2 ^ 43 + 1) 7 acts =
      some (.error .makeslice)) ∧
    ∀ acts out, multiThreadedFetch exEmptyClient 5 0 (2 ^ 43 + 1) 7 acts ≠ some (.ok out) := by
  have hinit : multiThreadedFetch.init 0 (2 ^ 43 + 1) = .error .makeslice := rfl
  have hm : ∀ acts, multiThreadedFetch exEmptyClient 5 0 (2 ^ 43 + 1) 7 acts =
      some (.error .makeslice) := by
    intro acts
    unfold multiThreadedFetch
    rw [hinit]
  refine ⟨⟨by norm_num, by norm_num, by norm_num⟩, hinit, hm, ?_⟩
  intro acts out h
  rw [hm acts] at h
  cases h

/-- C2: whenever `fetchBlock` comes back, its transaction list is, in block
order, the entries of exactly those transactions of the block whose destination
is present and equal to the target and whose receipt has status 1 (so `K`
entries when `K` of the `M` addressed transactions succeeded, and none for a
contract creation); and it comes back as soon as every retry loop meets a
successful attempt within the fuel. -/
theorem C2_fetchBlock_filter (client : Client) (fuel block : Nat) (filter : Address) :
    (∀ out calls, fetchBlock client fuel block filter = some (out, calls) →
      out.block = block ∧
      out.data =
        ((client.blockAt block).Transactions.filter fun txn =>
            decide (txn.To = some filter) &&
              decide ((client.receiptOf txn.Hash).Status = 1)).map
          (fun txn => ⟨txn.Hash, txn.Data, (client.receiptOf txn.Hash).Logs⟩) ∧
      out.data.length =
        (((client.blockAt block).Transactions.filter fun txn =>
            decide (txn.To = some filter)).filter fun txn =>
              decide ((client.receiptOf txn.Hash).Status = 1)).length ∧
      ∀ e, e ∈ out.data → ∃ txn, txn ∈ (client.blockAt block).Transactions ∧
        txn.To = some filter ∧ txn.To ≠ none ∧ (client.receiptOf txn.Hash).Status = 1 ∧
          e = ⟨txn.Hash, txn.Data, (client.receiptOf txn.Hash).Logs⟩) ∧
    ((∃ k, k < fuel ∧ client.blockFails block k = false) →
      (∀ pos, ∃ k, k < fuel ∧ client.receiptFails block pos k = false) →
        ∃ out calls, fetchBlock client fuel block filter = some (out, calls)) := by
  refine ⟨?_, fun hblk hrc => fetchBlock_isSome client fuel block filter hblk hrc⟩
  intro out calls h
  obtain ⟨h1, h2⟩ := fetchBlock_data client fuel block filter out calls h
  refine ⟨h1, h2, ?_, ?_⟩
  · rw [h2, List.length_map, List.filter_filter]
    congr 1
    apply List.filter_congr
    intro txn _
    exact Bool.and_comm _ _
  · intro e he
    rw [h2] at he
    obtain ⟨txn, htx, hte⟩ := List.mem_map.mp he
    obtain ⟨hmem, hp⟩ := List.mem_filter.mp htx
    simp only [Bool.and_eq_true, decide_eq_true_eq] at hp
    exact ⟨txn, hmem, hp.1, by rw [hp.1]; simp, hp.2, hte.symm⟩

/-- C2 at block 10 of the example ledger: of four transactions, two are
addressed to the target and one of them succeeded. -/
theorem C2_witness :
    fetchBlock exClient 5 10 7 =
      some (⟨10, [exEntry]⟩,
        [.blockByNumber 10 false, .blockByNumber 10 true, .transactionReceipt 1 true,
          .transactionReceipt 3 false, .transactionReceipt 3 true]) ∧
    (⟨10, [exEntry]⟩ : fetchBlockOutput).data.length =
      (((exClient.blockAt 10).Transactions.filter fun txn =>
          decide (txn.To = some 7)).filter fun txn =>
            decide ((exClient.receiptOf txn.Hash).Status = 1)).length :=
  ⟨rfl, ((C2_fetchBlock_filter exClient 5 10 7).1 _ _ rfl).2.2.1⟩

/-- C3: a remote call that fails exactly `k` times and then succeeds is invoked
exactly `k + 1` times by the retry loop (given fuel for more than `k` attempts),
the loop ends and yields the value of the successful call; in `fetchBlock` both
the block loop and the receipt loop then go on with the value the ledger
reports, the `k` failed attempts leaving no trace but their calls. -/
theorem C3_retry_until_success (k fuel : Nat) (hfuel : k < fuel) :
    (∀ (α : Type) (call : Nat → Except Error α) (n : Nat) (v : α),
      (∀ j, j < k → ∃ e, call (n + j) = .error e) → call (n + k) = .ok v →
        retryLoop call fuel n = some (v, List.replicate k false ++ [true]) ∧
          (List.replicate k false ++ [true]).length = k + 1) ∧
    (∀ (client : Client) (block : Nat) (filter : Address),
      (∀ j, j < k → client.blockFails block j = true) → client.blockFails block k = false →
        fetchBlock client fuel block filter =
          receiptLoop client fuel block
            (filterLoop filter (client.blockAt block).Transactions []) 0 ⟨block, []⟩
            (List.replicate k (Call.blockByNumber block false) ++
              [Call.blockByNumber block true])) ∧
    (∀ (client : Client) (block pos : Nat) (txn : Transaction) (rest : List Transaction)
      (output : fetchBlockOutput) (calls : List Call),
      (∀ j, j < k → client.receiptFails block pos j = true) →
        client.receiptFails block pos k = false →
          receiptLoop client fuel block (txn :: rest) pos output calls =
            if (client.receiptOf txn.Hash).Status = 1 then
              receiptLoop client fuel block rest (pos + 1)
                { output with
                  data := output.data ++
                    [⟨txn.Hash, txn.Data, (client.receiptOf txn.Hash).Logs⟩] }
                (calls ++ (List.replicate k (Call.transactionReceipt txn.Hash false) ++
                  [Call.transactionReceipt txn.Hash true]))
            else
              receiptLoop client fuel block rest (pos + 1) output
                (calls ++ (List.replicate k (Call.transactionReceipt txn.Hash false) ++
                  [Call.transactionReceipt txn.Hash true]))) := by
  refine ⟨?_, ?_, ?_⟩
  · intro α call n v hfail hok
    exact ⟨retryLoop_of_script call k fuel n v hfail hok hfuel, by simp⟩
  · intro client block filter hfail hok
    have h := retryLoop_of_script (client.BlockByNumber block) k fuel 0 (client.blockAt block)
      (fun j hj => ⟨.transient, by simp [Client.BlockByNumber, hfail j hj]⟩)
      (by simp [Client.BlockByNumber, hok]) hfuel
    unfold fetchBlock
    rw [h]
    simp
  · intro client block pos txn rest output calls hfail hok
    have h := retryLoop_of_script (client.TransactionReceipt block pos txn.Hash) k fuel 0
      (client.receiptOf txn.Hash)
      (fun j hj => ⟨.transient, by simp [Client.TransactionReceipt, hfail j hj]⟩)
      (by simp [Client.TransactionReceipt, hok]) hfuel
    rw [receiptLoop, h]
    simp

/-- C3 at a call that fails twice: three invocations, the third one's value. -/
theorem C3_witness :
    retryLoop exCall 5 0 = some (7, [false, false, true]) ∧
      (List.replicate 2 false ++ [true]).length = 2 + 1 :=
  (C3_retry_until_success 2 5 (by decide)).1 Nat exCall 0 7
    (fun j hj => ⟨.transient, by
      have h : j = 0 ∨ j = 1 := by omega
      rcases h with h | h <;> subst h <;> rfl⟩) rfl

/-- C4: when the first decodable deposit event of a retained transaction has
the 8-byte amount payload `b0 .. b7`, a record is produced whatever the bytes are
and its amount is `b0 + b1*256 + ... + b7*256^7`, a value below `2^64`; bytes
`01 00 00 00 00 00 00 00` give 1 and bytes `00 ca 9a 3b 00 00 00 00` give
1000000000. -/
theorem C4_amount_little_endian (d : Decoder) (txData : fetchBlockEntry)
    (params : List AbiValue) (dataRoot : { l : Bytes // l.length = 32 }) (pre post : List Log)
    (l : Log) (ev : EventFields) (b0 b1 b2 b3 b4 b5 b6 b7 : Byte)
    (hlen : 4 ≤ txData.input.length)
    (hun : d.Unpack (txData.input.drop 4) = .ok params)
    (hroot : params[3]? = some (AbiValue.bytes32 dataRoot))
    (hlogs : txData.logs = pre ++ l :: post)
    (hpre : ∀ x, x ∈ pre → ∃ e, d.UnpackLog x = .error e)
    (hl : d.UnpackLog l = .ok ev)
    (hamount : ev.Amount = [b0, b1, b2, b3, b4, b5, b6, b7]) :
    (∃ r, decodeTx d txData = .ok r ∧
      r.Amount = b0.val + b1.val * 256 + b2.val * 256 ^ 2 + b3.val * 256 ^ 3 +
        b4.val * 256 ^ 4 + b5.val * 256 ^ 5 + b6.val * 256 ^ 6 + b7.val * 256 ^ 7 ∧
      r.Amount < 2 ^ 64) ∧
    LittleEndianUint64 [0x01, 0x00, 0x00, 0x00, 0x00, 0x00, 0x00, 0x00] = .ok 1 ∧
    LittleEndianUint64 [0x00, 0xca, 0x9a, 0x3b, 0x00, 0x00, 0x00, 0x00] = .ok 1000000000 := by
  refine ⟨?_, rfl, rfl⟩
  have h := decodeTx_event d txData params dataRoot pre post l ev hlen hun hroot hlogs hpre hl
  rw [hamount, LittleEndianUint64_cons8] at h
  refine ⟨_, h, rfl, ?_⟩
  have h0 := b0.isLt
  have h1 := b1.isLt
  have h2 := b2.isLt
  have h3 := b3.isLt
  have h4 := b4.isLt
  have h5 := b5.isLt
  have h6 := b6.isLt
  have h7 := b7.isLt
  simp only
  norm_num
  omega

/-- C4 at the retained deposit of the example ledger, whose event carries the
amount bytes `01 00 00 00 00 00 00 00`. -/
theorem C4_witness :
    (∃ r, decodeTx exDecoder exEntry = .ok r ∧
      r.Amount = (1 : Byte).val + (0 : Byte).val * 256 + (0 : Byte).val * 256 ^ 2 +
        (0 : Byte).val * 256 ^ 3 + (0 : Byte).val * 256 ^ 4 + (0 : Byte).val * 256 ^ 5 +
        (0 : Byte).val * 256 ^ 6 + (0 : Byte).val * 256 ^ 7 ∧
      r.Amount < 2 ^ 64) ∧
    LittleEndianUint64 [0x01, 0x00, 0x00, 0x00, 0x00, 0x00, 0x00, 0x00] = .ok 1 ∧
    LittleEndianUint64 [0x00, 0xca, 0x9a, 0x3b, 0x00, 0x00, 0x00, 0x00] = .ok 1000000000 :=
  C4_amount_little_endian exDecoder exEntry
    [.bytes [5], .bytes [5], .bytes [5], .bytes32 ⟨List.replicate 32 5, by simp⟩]
    ⟨List.replicate 32 5, by simp⟩ [exOtherLog] [exOtherLog] exLog
    ⟨[0xaa], [0xaa, 0xbb], [1, 0, 0, 0, 0, 0, 0, 0], [9], [0]⟩ 1 0 0 0 0 0 0 0
    (by decide) rfl rfl rfl
    (fun x hx => ⟨.decode 2, by rw [List.mem_singleton.mp hx]; rfl⟩) rfl rfl

/-- C5: for a retained transaction whose call input (after its first 4 bytes)
decodes with a 32-byte fourth parameter and whose first decodable log yields the
event `ev`, every produced record has as pubkey, withdrawal credentials and
signature the hex encodings of the event's fields (not of the call parameters),
and as deposit data root the hex encoding of that fourth parameter; a record is
produced as soon as the event's amount payload has 8 bytes or more; the hex
encoding determines the bytes. -/
theorem C5_record_fields (d : Decoder) (txData : fetchBlockEntry)
    (params : List AbiValue) (dataRoot : { l : Bytes // l.length = 32 }) (pre post : List Log)
    (l : Log) (ev : EventFields)
    (hlen : 4 ≤ txData.input.length)
    (hun : d.Unpack (txData.input.drop 4) = .ok params)
    (hroot : params[3]? = some (AbiValue.bytes32 dataRoot))
    (hlogs : txData.logs = pre ++ l :: post)
    (hpre : ∀ x, x ∈ pre → ∃ e, d.UnpackLog x = .error e)
    (hl : d.UnpackLog l = .ok ev) :
    (∀ r, decodeTx d txData = .ok r →
      r.Pubkey = hexutilEncode ev.Pubkey ∧
      r.WithdrawalCredentials = hexutilEncode ev.WithdrawalCredentials ∧
      r.Signature = hexutilEncode ev.Signature ∧
      r.DepositDataRoot = hexutilEncode dataRoot.val) ∧
    (8 ≤ ev.Amount.length → ∃ r, decodeTx d txData = .ok r) ∧
    (∀ a b : Bytes, hexutilEncode a = hexutilEncode b → a = b) := by
  have h := decodeTx_event d txData params dataRoot pre post l ev hlen hun hroot hlogs hpre hl
  refine ⟨?_, ?_, hexutilEncode_inj⟩
  · intro r hr
    rw [h] at hr
    split at hr
    · cases hr
    · cases hr
      exact ⟨rfl, rfl, rfl, rfl⟩
  · intro h8
    obtain ⟨amount, ha⟩ := LittleEndianUint64_isOk ev.Amount h8
    rw [ha] at h
    exact ⟨_, h⟩

/-- C5 at the retained deposit of the example ledger. -/
theorem C5_witness :
    decodeTx exDecoder exEntry =
      .ok ⟨"0xaa", "0xaabb", 1, "0x09",
        "0x0505050505050505050505050505050505050505050505050505050505050505"⟩ ∧
    (("0xaa" : String) = hexutilEncode [0xaa] ∧ ("0xaabb" : String) = hexutilEncode [0xaa, 0xbb] ∧
      ("0x09" : String) = hexutilEncode [9] ∧
      ("0x0505050505050505050505050505050505050505050505050505050505050505" : String) =
        hexutilEncode (List.replicate 32 5)) :=
  ⟨rfl, (C5_record_fields exDecoder exEntry
    [.bytes [5], .bytes [5], .bytes [5], .bytes32 ⟨List.replicate 32 5, by simp⟩]
    ⟨List.replicate 32 5, by simp⟩ [exOtherLog] [exOtherLog] exLog
    ⟨[0xaa], [0xaa, 0xbb], [1, 0, 0, 0, 0, 0, 0, 0], [9], [0]⟩
    (by decide) rfl rfl rfl
    (fun x hx => ⟨.decode 2, by rw [List.mem_singleton.mp hx]; rfl⟩) rfl).1 _ rfl⟩

/-- C6: when none of the logs of a retained transaction decodes as the deposit
event (the log list may be empty), decoding that transaction fails, and so does
the whole run: every run that gets to decode a block list holding the
transaction ends in a panic and yields no records. -/
theorem C6_no_event_fatal (client : Client) (d : Decoder) (fuel from_ to_ : Nat)
    (filter : Address) (acts : List Action) (blockData : List fetchBlockOutput)
    (blk : fetchBlockOutput) (txData : fetchBlockEntry)
    (hrun : multiThreadedFetch client fuel from_ to_ filter acts = some (.ok blockData))
    (hblk : blk ∈ blockData) (htx : txData ∈ blk.data)
    (hnone : ∀ x, x ∈ txData.logs → ∃ e, d.UnpackLog x = .error e) :
    (∃ p, decodeTx d txData = .error p) ∧
    (∃ p, decodeBlocks d blockData [] = .error p) ∧
    (∃ p, mainRun client d fuel from_ to_ filter acts = some (.error p)) ∧
    ∀ records, mainRun client d fuel from_ to_ filter acts ≠ some (.ok records) := by
  have h1 := decodeTx_no_event d txData hnone
  obtain ⟨p, hp⟩ := decodeBlocks_error d txData h1 blk htx blockData [] hblk
  have hm : mainRun client d fuel from_ to_ filter acts = some (.error p) := by
    unfold mainRun
    rw [hrun]
    simp only [hp]
  refine ⟨h1, ⟨p, hp⟩, ⟨p, hm⟩, ?_⟩
  intro records hrec
  rw [hm] at hrec
  cases hrec

/-- C6 at block 13 of the example ledger, whose call has an empty log list: the
run dies on the nil event. -/
theorem C6_witness :
    mainRun exClient exDecoder 5 13 14 7 [.main, .main, .main, .write 0, .finish 0, .main, .main] =
      some (.error .nilDereference) ∧
    ((∃ p, decodeTx exDecoder ⟨8, [1, 2, 3, 4, 5], []⟩ = .error p) ∧
    (∃ p, decodeBlocks exDecoder [⟨13, [⟨8, [1, 2, 3, 4, 5], []⟩]⟩] [] = .error p) ∧
    (∃ p, mainRun exClient exDecoder 5 13 14 7
      [.main, .main, .main, .write 0, .finish 0, .main, .main] = some (.error p)) ∧
    ∀ records, mainRun exClient exDecoder 5 13 14 7
      [.main, .main, .main, .write 0, .finish 0, .main, .main] ≠ some (.ok records)) :=
  ⟨rfl, C6_no_event_fatal exClient exDecoder 5 13 14 7
    [.main, .main, .main, .write 0, .finish 0, .main, .main]
    [⟨13, [⟨8, [1, 2, 3, 4, 5], []⟩]⟩] ⟨13, [⟨8, [1, 2, 3, 4, 5], []⟩]⟩ ⟨8, [1, 2, 3, 4, 5], []⟩
    rfl (List.mem_singleton.mpr rfl) (List.mem_singleton.mpr rfl)
    (fun x hx => absurd hx (List.not_mem_nil x))⟩

/-- C7: when the call input of some retained transaction of the scanned range
does not decode against the deposit parameters, or its fourth decoded parameter
is not a 32-byte value, the run ends in a panic and yields no record sequence,
whatever the other transactions are. -/
theorem C7_bad_input_fatal (client : Client) (d : Decoder) (fuel from_ to_ : Nat)
    (filter : Address) (acts : List Action) (blockData : List fetchBlockOutput)
    (blk : fetchBlockOutput) (txData : fetchBlockEntry)
    (hrun : multiThreadedFetch client fuel from_ to_ filter acts = some (.ok blockData))
    (hblk : blk ∈ blockData) (htx : txData ∈ blk.data)
    (hbad : (∃ e, d.Unpack (txData.input.drop 4) = .error e) ∨
      ∃ params, d.Unpack (txData.input.drop 4) = .ok params ∧
        ∀ r, params[3]? ≠ some (AbiValue.bytes32 r)) :
    (∃ p, decodeBlocks d blockData [] = .error p) ∧
    (∃ p, mainRun client d fuel from_ to_ filter acts = some (.error p)) ∧
    ∀ records, mainRun client d fuel from_ to_ filter acts ≠ some (.ok records) := by
  have h1 := decodeTx_bad_input d txData hbad
  obtain ⟨p, hp⟩ := decodeBlocks_error d txData h1 blk htx blockData [] hblk
  have hm : mainRun client d fuel from_ to_ filter acts = some (.error p) := by
    unfold mainRun
    rw [hrun]
    simp only [hp]
  refine ⟨⟨p, hp⟩, ⟨p, hm⟩, ?_⟩
  intro records hrec
  rw [hm] at hrec
  cases hrec

/-- C7 at blocks 10 and 11 of the example ledger: the deposit of block 10
decodes, the data root of the call in block 11 has the wrong type, and the run
yields nothing. -/
theorem C7_witness :
    mainRun exClient exDecoder 5 10 12 7 exSchedule = some (.error .invalidDataRoot) ∧
    ((∃ p, decodeBlocks exDecoder [⟨10, [exEntry]⟩, ⟨11, [⟨5, [1, 2, 3, 4, 0], [exLog]⟩]⟩] [] =
      .error p) ∧
    (∃ p, mainRun exClient exDecoder 5 10 12 7 exSchedule = some (.error p)) ∧
    ∀ records, mainRun exClient exDecoder 5 10 12 7 exSchedule ≠ some (.ok records)) :=
  ⟨rfl, C7_bad_input_fatal exClient exDecoder 5 10 12 7 exSchedule
    [⟨10, [exEntry]⟩, ⟨11, [⟨5, [1, 2, 3, 4, 0], [exLog]⟩]⟩] ⟨11, [⟨5, [1, 2, 3, 4, 0], [exLog]⟩]⟩
    ⟨5, [1, 2, 3, 4, 0], [exLog]⟩ rfl (by simp) (List.mem_singleton.mpr rfl)
    (Or.inr ⟨[.bytes [], .bytes [], .bytes [], .other 0], rfl, by
      intro r h
      simp at h⟩)⟩

/-- C8: for the empty range `from = to = n` no goroutine is ever spawned and no
remote call is ever made, in any state any schedule can reach; the two dispatcher
steps lead to the return; every run that comes back hands back the empty slice
and the decoding yields zero records. -/
theorem C8_empty_range (client : Client) (d : Decoder) (fuel n : Nat) (filter : Address) :
    (∀ acts s0 s, multiThreadedFetch.init n n = .ok s0 →
      exec client fuel n filter acts s0 = some s →
        s.calls = [] ∧ s.tasks = [] ∧ s.writes = [] ∧ s.output = []) ∧
    (∀ acts r, multiThreadedFetch client fuel n n filter acts = some r → r = .ok []) ∧
    (∀ acts r, mainRun client d fuel n n filter acts = some r → r = .ok []) ∧
    multiThreadedFetch client fuel n n filter [.main, .main] = some (.ok []) ∧
    mainRun client d fuel n n filter [.main, .main] = some (.ok []) := by
  have hsub : subU64 n n = 0 := by
    unfold subU64
    have h1 : n % 2 ^ 64 + 2 ^ 64 - n % 2 ^ 64 = 2 ^ 64 := by omega
    rw [h1, Nat.mod_self]
  have hinit : multiThreadedFetch.init n n = .ok
      { runs := 0, pc := .gate, i := 0, activeThreads := 0, output := [], tasks := [],
        calls := [], writes := [] } := by
    unfold multiThreadedFetch.init
    rw [hsub]
    rfl
  have hstate : ∀ acts s0 s, multiThreadedFetch.init n n = .ok s0 →
      exec client fuel n filter acts s0 = some s →
        s.calls = [] ∧ s.tasks = [] ∧ s.writes = [] ∧ s.output = [] := by
    intro acts s0 s h0 he
    have hinv := inv_exec client fuel n filter acts s0 s
      (inv_init client fuel n n filter s0 h0) he
    have hruns : s.runs = 0 := by
      rw [exec_runs client fuel n filter acts s0 s he]
      rw [hinit] at h0
      cases h0
      rfl
    have hw : s.writes = [] := by
      apply List.eq_nil_iff_forall_not_mem.mpr
      intro j hj
      have := writes_lt client fuel n filter s hinv j hj
      omega
    have ht : s.tasks = [] := by
      apply List.length_eq_zero.mp
      have h1 := hinv.len
      have h2 := hinv.le
      omega
    have ho : s.output = [] := by
      apply List.length_eq_zero.mp
      rw [hinv.out, hruns]
    refine ⟨?_, ht, hw, ho⟩
    rw [hinv.hist, hw]
    rfl
  have hfetch : ∀ acts r, multiThreadedFetch client fuel n n filter acts = some r →
      r = .ok [] := by
    intro acts r hr
    obtain ⟨s, he, _, hrs⟩ := multiThreadedFetch_some client fuel n n filter _ hinit acts r hr
    rw [hrs, (hstate acts _ s hinit he).2.2.2]
  have hrun : multiThreadedFetch client fuel n n filter [.main, .main] = some (.ok []) := by
    unfold multiThreadedFetch
    rw [hinit]
    rfl
  refine ⟨hstate, hfetch, ?_, hrun, ?_⟩
  · intro acts r hr
    unfold mainRun at hr
    split at hr
    · cases hr
    · rename_i p hp
      have := hfetch acts _ hp
      cases this
    · rename_i blockData hp
      have := hfetch acts _ hp
      cases this
      cases hr
      rfl
  · unfold mainRun
    rw [hrun]
    rfl

/-- C8 at the example ledger, for the empty range at block 10. -/
theorem C8_witness :
    multiThreadedFetch exClient 5 10 10 7 [.main, .main] = some (.ok []) ∧
    mainRun exClient exDecoder 5 10 10 7 [.main, .main] = some (.ok []) :=
  (C8_empty_range exClient exDecoder 5 10 7).2.2.2

/-- C9 (amended): for a range with `from_ ≤ to_` and `to_ - from_ ≤ 2^43` (the
longest slice of block results the allocation accepts) in which no transaction of any block is addressed to the target, the scan gets past
its allocation; no state any schedule can reach has seen a receipt fetch or a
block fetch for a number outside the range; at the return the run has made
exactly one successful block fetch for each block number of the range and yields
zero records; and when each block fetch of the range meets a successful attempt
within the fuel, every run can be continued to that return. -/
theorem C9_no_matching_transaction (client : Client) (d : Decoder) (fuel from_ to_ : Nat)
    (filter : Address) (hle : from_ ≤ to_) (hto : to_ < 2 ^ 64) (hsz : to_ - from_ ≤ 2 ^ 43)
    (hno : ∀ n, from_ ≤ n → n < to_ →
      ∀ txn, txn ∈ (client.blockAt n).Transactions → txn.To ≠ some filter) :
    ∃ s0, multiThreadedFetch.init from_ to_ = .ok s0 ∧
      (∀ acts s, exec client fuel from_ filter acts s0 = some s →
        (∀ hash ok, Call.transactionReceipt hash ok ∉ s.calls) ∧
        (∀ n ok, Call.blockByNumber n ok ∈ s.calls → from_ ≤ n ∧ n < to_) ∧
        (s.pc = .returned →
          (∀ n, s.calls.count (Call.blockByNumber n true) =
            if from_ ≤ n ∧ n < to_ then 1 else 0) ∧
          mainRun client d fuel from_ to_ filter acts = some (.ok []))) ∧
      ((∀ n, from_ ≤ n → n < to_ → ∃ k, k < fuel ∧ client.blockFails n k = false) →
        ∀ acts s, exec client fuel from_ filter acts s0 = some s →
          ∃ more, mainRun client d fuel from_ to_ filter (acts ++ more) = some (.ok [])) := by
  have h0 := init_ok from_ to_ hle hto hsz
  have hsafe : ∀ acts s,
      exec client fuel from_ filter acts
          { runs := to_ - from_, pc := .gate, i := 0, activeThreads := 0,
            output := List.replicate (to_ - from_) default, tasks := [], calls := [],
            writes := [] } = some s →
        (∀ hash ok, Call.transactionReceipt hash ok ∉ s.calls) ∧
        (∀ n ok, Call.blockByNumber n ok ∈ s.calls → from_ ≤ n ∧ n < to_) ∧
        (s.pc = .returned →
          (∀ n, s.calls.count (Call.blockByNumber n true) =
            if from_ ≤ n ∧ n < to_ then 1 else 0) ∧
          mainRun client d fuel from_ to_ filter acts = some (.ok [])) := by
    intro acts s he
    have hinv := inv_exec client fuel from_ filter acts _ s
      (inv_init client fuel from_ to_ filter _ h0) he
    have hruns : s.runs = to_ - from_ := by
      rw [exec_runs client fuel from_ filter acts _ s he]
    have hshape : ∀ j, j ∈ s.writes → ∃ k, scanCalls client fuel from_ filter j =
        List.replicate k (Call.blockByNumber (from_ + j) false) ++
          [Call.blockByNumber (from_ + j) true] := by
      intro j hj
      have hjr := writes_lt client fuel from_ filter s hinv j hj
      rw [hruns] at hjr
      obtain ⟨task, ht, hph⟩ := (hinv.mem j).mp hj
      obtain ⟨out, calls, hf, _⟩ := hinv.slots j task ht hph
      unfold scanCalls
      rw [hf]
      rw [addU64_of_lt from_ to_ j hto (by omega)] at hf
      exact (fetchBlock_no_match client fuel (from_ + j) filter
        (hno (from_ + j) (by omega) (by omega)) out calls hf).2
    obtain ⟨hcount, hmem⟩ := callsOfWrites_no_match client fuel from_ filter s.writes hshape
    rw [← hinv.hist] at hcount hmem
    refine ⟨?_, ?_, ?_⟩
    · intro hash ok hc
      obtain ⟨j, ok1, _, he1⟩ := hmem _ hc
      cases he1
    · intro n ok hc
      obtain ⟨j, ok1, hj, he1⟩ := hmem _ hc
      have hjr := writes_lt client fuel from_ filter s hinv j hj
      cases he1
      omega
    · intro hret
      constructor
      · intro n
        rw [hcount n]
        by_cases hn : from_ ≤ n ∧ n < to_
        · rw [if_pos hn]
          have hjm : n - from_ ∈ s.writes :=
            writes_returned client fuel from_ filter s hinv hret _ (by omega)
          have hc1 := List.count_eq_one_of_mem hinv.nodup hjm
          rw [← hc1, List.count]
          apply List.countP_congr
          intro j _
          simp only [decide_eq_true_eq, beq_iff_eq]
          omega
        · rw [if_neg hn]
          apply List.countP_eq_zero.mpr
          intro j hj
          have hjr := writes_lt client fuel from_ filter s hinv j hj
          simp only [decide_eq_true_eq]
          omega
      · obtain ⟨hlen, hslot⟩ :=
          returned_range client fuel from_ to_ filter hle hto hsz acts _ s h0 he hret
        have hempty : ∀ blk, blk ∈ s.output → blk.data = [] := by
          intro blk hb
          obtain ⟨i, hi, hget⟩ := List.getElem_of_mem hb
          obtain ⟨out, calls, hf, ho⟩ := hslot i (by omega)
          rw [List.getElem?_eq_getElem hi, hget] at ho
          cases ho
          rw [(fetchBlock_no_match client fuel (from_ + i) filter
            (hno (from_ + i) (by omega) (by omega)) blk calls hf).1]
        unfold mainRun
        rw [multiThreadedFetch_of_exec client fuel from_ to_ filter _ s h0 acts he hret]
        simp only
        rw [decodeBlocks_empty d s.output [] hempty]
  refine ⟨_, h0, hsafe, ?_⟩
  intro hblk acts s he
  have hlive : ∀ n, from_ ≤ n → n < to_ → ∃ out calls,
      fetchBlock client fuel n filter = some (out, calls) := fun n h1 h2 =>
    fetchBlock_no_match_isSome client fuel n filter (hno n h1 h2) (hblk n h1 h2)
  obtain ⟨more, s1, h1, hret⟩ :=
    extend_to_return client fuel from_ to_ filter hle hto hsz hlive acts _ s h0 he
  exact ⟨more, ((hsafe (acts ++ more) s1 h1).2.2 hret).2⟩

/-- C9 at the empty blocks 20 and 21 of the example ledger: the run yields no
record. -/
theorem C9_witness :
    mainRun exClient exDecoder 5 20 22 7 exSchedule = some (.ok []) ∧
    exec exClient 5 20 7 exSchedule ⟨2, .gate, 0, 0, [default, default], [], [], []⟩ =
      some ⟨2, .returned, 2, 0, [⟨20, []⟩, ⟨21, []⟩], [⟨0, .finished⟩, ⟨1, .finished⟩],
        [.blockByNumber 21 true, .blockByNumber 20 false, .blockByNumber 20 false,
          .blockByNumber 20 true], [1, 0]⟩ ∧
    ∃ more, mainRun exClient exDecoder 5 20 22 7 ([] ++ more) = some (.ok []) := by
  obtain ⟨s0, h0, _, hlive⟩ := C9_no_matching_transaction exClient exDecoder 5 20 22 7
    (by decide) (by norm_num) (by norm_num) (by
      intro n h1 h2 txn htx
      have h : n = 20 ∨ n = 21 := by omega
      rcases h with h | h <;> subst h <;> simp [exClient] at htx)
  refine ⟨rfl, rfl, hlive ?_ [] s0 rfl⟩
  intro n h1 h2
  have h : n = 20 ∨ n = 21 := by omega
  rcases h with h | h <;> subst h
  · exact ⟨2, by decide, rfl⟩
  · exact ⟨0, by decide, rfl⟩

/-- C9 as first stated fails for a range of `2^43 + 1` empty blocks, whose slots
exceed the allocation limit, and for a range of `2^63` empty blocks, whose run
count is negative: the allocation panics under every schedule, no block is ever
fetched and the run yields a panic instead of zero records. -/
theorem C9_counterexample :
    (∀ n, ∀ txn, txn ∈ (exEmptyClient.blockAt n).Transactions → txn.To ≠ some 7) ∧
    (∀ s0, multiThreadedFetch.init 0 (2 ^ 43 + 1) ≠ .ok s0) ∧
    (∀ acts, mainRun exEmptyClient exDecoder 5 0 (2 ^ 43 + 1) 7 acts =
      some (.error .makeslice)) ∧
    (∀ s0, multiThreadedFetch.init 0 (2 ^ 63) ≠ .ok s0) ∧
    (∀ acts, multiThreadedFetch exEmptyClient 5 0 (2 ^ 63) 7 acts = some (.error .makeslice)) ∧
    ∀ acts, mainRun exEmptyClient exDecoder 5 0 (2 ^ 63) 7 acts = some (.error .makeslice) := by
  have hinit : multiThreadedFetch.init 0 (2 ^ 63) = .error .makeslice := rfl
  have hinit43 : multiThreadedFetch.init 0 (2 ^ 43 + 1) = .error .makeslice := rfl
  have hm : ∀ acts, multiThreadedFetch exEmptyClient 5 0 (2 ^ 63) 7 acts =
      some (.error .makeslice) := by
    intro acts
    unfold multiThreadedFetch
    rw [hinit]
  have hm43 : ∀ acts, multiThreadedFetch exEmptyClient 5 0 (2 ^ 43 + 1) 7 acts =
      some (.error .makeslice) := by
    intro acts
    unfold multiThreadedFetch
    rw [hinit43]
  refine ⟨?_, ?_, ?_, ?_, hm, ?_⟩
  · intro n txn htx
    simp [exEmptyClient] at htx
  · intro s0 h
    rw [hinit43] at h
    cases h
  · intro acts
    unfold mainRun
    rw [hm43 acts]
  · intro s0 h
    rw [hinit] at h
    cases h
  · intro acts
    unfold mainRun
    rw [hm acts]

/-- C10: in every state any schedule can reach, the number of goroutines that
were spawned and have not yet decremented the counter is at most the ceiling,
which is 80, and so is the counter; the dispatcher leaves the gate towards
a spawn only with the counter strictly below the ceiling. -/
theorem C10_active_bounded (client : Client) (fuel from_ to_ : Nat) (filter : Address)
    (acts : List Action) (s0 s : Sched)
    (h0 : multiThreadedFetch.init from_ to_ = .ok s0)
    (he : exec client fuel from_ filter acts s0 = some s) :
    activeTasks s ≤ maxThreads ∧ s.activeThreads ≤ maxThreads ∧ maxThreads = 80 ∧
    (s.pc = .add → s.activeThreads < maxThreads) ∧
    ∀ s1, s.pc = .gate → maxThreads ≤ s.activeThreads → s.i < s.runs →
      step client fuel from_ filter s .main ≠ some s1 := by
  have hinv := inv_exec client fuel from_ filter acts s0 s
    (inv_init client fuel from_ to_ filter s0 h0) he
  have hact := hinv.act
  have hb := hinv.bound
  refine ⟨by omega, hb, rfl, hinv.addlt, ?_⟩
  intro s1 hpc hge hlt hs
  simp only [step, hpc, if_pos hlt] at hs
  rw [if_pos hge] at hs
  cases hs

set_option maxRecDepth 100000 in
/-- C10 at the example ledger: two scans in flight; and with eighty scans in
flight the dispatcher cannot move. -/
theorem C10_witness :
    (exec exClient 5 10 7 [.main, .main, .main, .main, .main, .main, .write 1]
        ⟨2, .gate, 0, 0, [default, default], [], [], []⟩ =
      some ⟨2, .gate, 2, 2, [default, ⟨11, [⟨5, [1, 2, 3, 4, 0], [exLog]⟩]⟩],
        [⟨0, .fetching⟩, ⟨1, .written⟩],
        [.blockByNumber 11 false, .blockByNumber 11 false, .blockByNumber 11 true,
          .transactionReceipt 5 true], [1]⟩ ∧
    activeTasks ⟨2, .gate, 2, 2, [default, ⟨11, [⟨5, [1, 2, 3, 4, 0], [exLog]⟩]⟩],
        [⟨0, .fetching⟩, ⟨1, .written⟩],
        [.blockByNumber 11 false, .blockByNumber 11 false, .blockByNumber 11 true,
          .transactionReceipt 5 true], [1]⟩ ≤ maxThreads) ∧
    (exec exClient 5 0 7 exFill
        ⟨81, .gate, 0, 0, List.replicate 81 default, [], [], []⟩).map activeTasks = some 80 ∧
    (exec exClient 5 0 7 (exFill ++ [.main])
        ⟨81, .gate, 0, 0, List.replicate 81 default, [], [], []⟩).map activeTasks = none :=
  ⟨⟨rfl, (C10_active_bounded exClient 5 10 12 7
    [.main, .main, .main, .main, .main, .main, .write 1]
    ⟨2, .gate, 0, 0, [default, default], [], [], []⟩ _ rfl rfl).1⟩, by decide, by decide⟩

/-- C11: when the scheduler has handed back the block results of a range
`from_ ≤ to_`, entry `i` is the result of block `from_ + i`; every record list
the run yields holds exactly one record per retained transaction, the record at
each position being the decoding of the transaction at that position of the
concatenation of the entries' transaction lists (ascending block number, block
order within a block); and the run yields such a list when every retained
transaction decodes. -/
theorem C11_records_in_order (client : Client) (d : Decoder) (fuel from_ to_ : Nat)
    (filter : Address) (acts : List Action) (blockData : List fetchBlockOutput)
    (hle : from_ ≤ to_) (hto : to_ < 2 ^ 64)
    (hrun : multiThreadedFetch client fuel from_ to_ filter acts = some (.ok blockData)) :
    (blockData.length = to_ - from_ ∧
      ∀ i, i < to_ - from_ → ∃ blk, blockData[i]? = some blk ∧ blk.block = from_ + i) ∧
    (∀ records, mainRun client d fuel from_ to_ filter acts = some (.ok records) →
      ((blockData.map fun blk => blk.data).flatten).map (decodeTx d) =
          records.map Except.ok ∧
        records.length = ((blockData.map fun blk => blk.data).flatten).length) ∧
    ((∀ blk, blk ∈ blockData → ∀ tx, tx ∈ blk.data → ∃ r, decodeTx d tx = .ok r) →
      ∃ records, mainRun client d fuel from_ to_ filter acts = some (.ok records)) := by
  have hm := mainRun_of_fetch client d fuel from_ to_ filter acts blockData hrun
  refine ⟨fetch_blocks client fuel from_ to_ filter hle hto acts blockData hrun, ?_, ?_⟩
  · intro records hrec
    rw [hm] at hrec
    simp only [Option.some.injEq] at hrec
    obtain ⟨recs, h1, h2⟩ := decodeBlocks_ok d blockData [] records hrec
    rw [List.nil_append] at h1
    subst h1
    refine ⟨h2, ?_⟩
    have hlen := congrArg List.length h2
    rw [List.length_map, List.length_map] at hlen
    exact hlen.symm
  · intro hall
    obtain ⟨out1, h1⟩ := decodeBlocks_isOk d blockData [] hall
    exact ⟨out1, by rw [hm, h1]⟩

/-- C11 at a ledger with two deposits in block 40 and one in block 41, the scan
of block 41 completing first: three records, in ledger order. -/
theorem C11_witness :
    mainRun exOrderClient exDecoder 2 40 42 7 exSchedule = some (.ok exOrderRecords) ∧
    (exOrderBlocks.length = 42 - 40 ∧
      ∀ i, i < 42 - 40 → ∃ blk, exOrderBlocks[i]? = some blk ∧ blk.block = 40 + i) ∧
    (((exOrderBlocks.map fun blk => blk.data).flatten).map (decodeTx exDecoder) =
        exOrderRecords.map Except.ok ∧
      exOrderRecords.length = ((exOrderBlocks.map fun blk => blk.data).flatten).length) :=
  ⟨rfl,
    (C11_records_in_order exOrderClient exDecoder 2 40 42 7 exSchedule exOrderBlocks
      (by decide) (by norm_num) rfl).1,
    (C11_records_in_order exOrderClient exDecoder 2 40 42 7 exSchedule exOrderBlocks
      (by decide) (by norm_num) rfl).2.1 exOrderRecords rfl⟩

/-- C12: two scans of the same range over the same ledger (same blocks, same
receipts), under any two failure patterns, any two fuels and any two schedules,
hand back the same block results and yield the same records (or the same panic)
whenever both come back. -/
theorem C12_scan_deterministic (c1 c2 : Client) (d : Decoder) (f1 f2 from_ to_ : Nat)
    (filter : Address) (a1 a2 : List Action) (hb : c1.blockAt = c2.blockAt)
    (hr : c1.receiptOf = c2.receiptOf) :
    (∀ r1 r2, multiThreadedFetch c1 f1 from_ to_ filter a1 = some r1 →
      multiThreadedFetch c2 f2 from_ to_ filter a2 = some r2 → r1 = r2) ∧
    (∀ r1 r2, mainRun c1 d f1 from_ to_ filter a1 = some r1 →
      mainRun c2 d f2 from_ to_ filter a2 = some r2 → r1 = r2) :=
  ⟨fun r1 r2 h1 h2 =>
      fetch_deterministic c1 c2 f1 f2 from_ to_ filter a1 a2 hb hr r1 r2 h1 h2,
    fun r1 r2 h1 h2 =>
      main_deterministic c1 c2 d f1 f2 from_ to_ filter a1 a2 hb hr r1 r2 h1 h2⟩

/-- C12 at the example ledger: once behind a failing network with the second
scan completing first, once behind a network without failures with the scans in
turn. -/
theorem C12_witness :
    multiThreadedFetch exClient 5 10 12 7 exSchedule =
      some (.ok [⟨10, [exEntry]⟩, ⟨11, [⟨5, [1, 2, 3, 4, 0], [exLog]⟩]⟩]) ∧
    multiThreadedFetch exClient2 3 10 12 7 exSchedule2 =
      some (.ok [⟨10, [exEntry]⟩, ⟨11, [⟨5, [1, 2, 3, 4, 0], [exLog]⟩]⟩]) ∧
    ∀ r1 r2, multiThreadedFetch exClient 5 10 12 7 exSchedule = some r1 →
      multiThreadedFetch exClient2 3 10 12 7 exSchedule2 = some r2 → r1 = r2 :=
  ⟨rfl, rfl, (C12_scan_deterministic exClient exClient2 exDecoder 5 3 10 12 7 exSchedule
    exSchedule2 rfl rfl).1⟩

/-- C13: in a log list `pre ++ [l] ++ post` where no log of `pre` decodes and
`l` decodes to `ev`, the log loop ends with the event of `l`, the outcome of
decoding the transaction is the same for every `post`, and when the call input
decodes the record is built from `ev`. -/
theorem C13_first_decodable_log (d : Decoder) (hash : Hash) (input : Bytes)
    (pre post : List Log) (l : Log) (ev : EventFields)
    (hpre : ∀ x, x ∈ pre → ∃ e, d.UnpackLog x = .error e)
    (hl : d.UnpackLog l = .ok ev) :
    parseLogs d (pre ++ [l] ++ post) none none =
      (some ⟨ev.Pubkey, ev.WithdrawalCredentials, ev.Amount, ev.Signature, ev.Index, l⟩,
        none) ∧
    (∀ post2, decodeTx d ⟨hash, input, pre ++ [l] ++ post⟩ =
      decodeTx d ⟨hash, input, pre ++ [l] ++ post2⟩) ∧
    (∀ params dataRoot, 4 ≤ input.length → d.Unpack (input.drop 4) = .ok params →
      params[3]? = some (AbiValue.bytes32 dataRoot) →
        decodeTx d ⟨hash, input, pre ++ [l] ++ post⟩ =
          match LittleEndianUint64 ev.Amount with
          | .error p => .error p
          | .ok amount =>
            .ok
              { Pubkey := hexutilEncode ev.Pubkey
                WithdrawalCredentials := hexutilEncode ev.WithdrawalCredentials
                Amount := amount
                Signature := hexutilEncode ev.Signature
                DepositDataRoot := hexutilEncode dataRoot.val }) := by
  have hp : ∀ post1, parseLogs d (pre ++ [l] ++ post1) none none =
      (some ⟨ev.Pubkey, ev.WithdrawalCredentials, ev.Amount, ev.Signature, ev.Index, l⟩,
        none) := by
    intro post1
    have h := parseLogs_first d l ev post1 hl pre none none hpre
    simpa [List.append_assoc] using h
  refine ⟨hp post, ?_, ?_⟩
  · intro post2
    exact decodeTx_logs_congr d hash input _ _ (by rw [hp post, hp post2])
  · intro params dataRoot hlen hun hroot
    exact decodeTx_event d ⟨hash, input, pre ++ [l] ++ post⟩ params dataRoot pre post l ev
      hlen hun hroot (by simp [List.append_assoc]) hpre hl

/-- C13 at a transaction whose deposit log is followed by a second deposit log
with another amount: the record is that of the first. -/
theorem C13_witness :
    decodeTx exDecoder ⟨1, [1, 2, 3, 4, 5], [exOtherLog] ++ [exLog] ++ [exLongLog, exOtherLog]⟩ =
      .ok ⟨"0xaa", "0xaabb", 1, "0x09",
        "0x0505050505050505050505050505050505050505050505050505050505050505"⟩ ∧
    decodeTx exDecoder ⟨1, [1, 2, 3, 4, 5], [exOtherLog] ++ [exLog] ++ [exLongLog, exOtherLog]⟩ =
      decodeTx exDecoder ⟨1, [1, 2, 3, 4, 5], [exOtherLog] ++ [exLog] ++ []⟩ :=
  ⟨rfl, (C13_first_decodable_log exDecoder 1 [1, 2, 3, 4, 5] [exOtherLog]
    [exLongLog, exOtherLog] exLog ⟨[0xaa], [0xaa, 0xbb], [1, 0, 0, 0, 0, 0, 0, 0], [9], [0]⟩
    (fun x hx => ⟨.decode 2, by rw [List.mem_singleton.mp hx]; rfl⟩) rfl).2.1 []⟩

/-- C14: a scan of a range `from_ ≤ to_` of at most `2^43` blocks gets past its
allocation; and in every state any schedule can reach from the start of a scan
of a range `from_ ≤ to_`, each goroutine that is no longer counted as active has
written its slot, which holds the scan of its block; in every state in which the
scheduler has returned all `to_ - from_` indices have been dispatched, the
counter is zero and every one of the `to_ - from_` slots has been written with
the scan of its block. -/
theorem C14_finished_tasks_have_written (client : Client) (fuel from_ to_ : Nat)
    (filter : Address) (hle : from_ ≤ to_) (hto : to_ < 2 ^ 64) :
    (to_ - from_ ≤ 2 ^ 43 → ∃ s0, multiThreadedFetch.init from_ to_ = .ok s0) ∧
    ∀ s0 acts s, multiThreadedFetch.init from_ to_ = .ok s0 →
      exec client fuel from_ filter acts s0 = some s →
        (∀ (t : Nat) (task : Task), s.tasks[t]? = some task → task.active = false →
          task.i ∈ s.writes ∧ ∃ out calls,
            fetchBlock client fuel (from_ + task.i) filter = some (out, calls) ∧
              s.output[task.i]? = some out) ∧
        (s.pc = .returned →
          s.i = to_ - from_ ∧ s.tasks.length = to_ - from_ ∧ s.activeThreads = 0 ∧
          activeTasks s = 0 ∧
          ∀ i, i < to_ - from_ → i ∈ s.writes ∧ ∃ out calls,
            fetchBlock client fuel (from_ + i) filter = some (out, calls) ∧
              s.output[i]? = some out) := by
  refine ⟨fun hsz => ⟨_, init_ok from_ to_ hle hto hsz⟩, ?_⟩
  intro s0 acts s h0 he
  have hsz := init_size from_ to_ hle hto s0 h0
  obtain ⟨hinv, hruns⟩ := reach_inv client fuel from_ to_ filter hle hto acts s0 s h0 he
  constructor
  · intro t task ht hdone
    have hidx := hinv.idx t task ht
    have hph : task.phase ≠ .fetching := by
      intro hp
      simp [Task.active, hp] at hdone
    have htl : t < s.tasks.length := (List.getElem?_eq_some.mp ht).1
    have hlt : t < to_ - from_ := by
      have h1 := hinv.len
      have h2 := hinv.le
      omega
    rw [hidx]
    refine ⟨(hinv.mem t).mpr ⟨task, ht, hph⟩, ?_⟩
    obtain ⟨out, calls, hf, ho⟩ := hinv.slots t task ht hph
    rw [addU64_of_lt from_ to_ t hto (by omega)] at hf
    exact ⟨out, calls, hf, ho⟩
  · intro hret
    have hfin := hinv.fin (Or.inr hret)
    have hz := hinv.ret hret
    have hact := hinv.act
    rw [hz, hret] at hact
    refine ⟨by omega, by rw [hinv.len]; omega, hz, by simpa using hact.symm, ?_⟩
    intro i hi
    refine ⟨writes_returned client fuel from_ filter s hinv hret i (by omega), ?_⟩
    obtain ⟨_, hslot⟩ :=
      returned_range client fuel from_ to_ filter hle hto hsz acts s0 s h0 he hret
    exact hslot i hi

/-- C14 at the example ledger: after both scans of blocks 10 and 11 have
finished both slots are written. -/
theorem C14_witness :
    exec exClient 5 10 7 exSchedule ⟨2, .gate, 0, 0, [default, default], [], [], []⟩ =
      some exFinal ∧
    (∃ s0, multiThreadedFetch.init 10 12 = .ok s0) ∧
    (exFinal.i = 12 - 10 ∧ exFinal.tasks.length = 12 - 10 ∧ exFinal.activeThreads = 0 ∧
      activeTasks exFinal = 0 ∧
      ∀ i, i < 12 - 10 → i ∈ exFinal.writes ∧ ∃ out calls,
        fetchBlock exClient 5 (10 + i) 7 = some (out, calls) ∧
          exFinal.output[i]? = some out) :=
  ⟨rfl,
    (C14_finished_tasks_have_written exClient 5 10 12 7 (by decide) (by norm_num)).1
      (by norm_num),
    ((C14_finished_tasks_have_written exClient 5 10 12 7 (by decide) (by norm_num)).2
      ⟨2, .gate, 0, 0, [default, default], [], [], []⟩ exSchedule exFinal rfl rfl).2 rfl⟩

/-- C15: a scan of a range `from_ ≤ to_` of at most `2^43` blocks gets past its
allocation; and in every state any schedule can reach from the start of a scan
of a range `from_ ≤ to_`, goroutine `t` carries the index `t < to_ - from_`; its slot
write stores the scan of block `from_ + t` at index `t`, an index not written
before, and leaves every other slot as it is; the decrement of a goroutine and
the steps of the dispatcher write no slot; no index is written twice, and at the
return every index below `to_ - from_` has been written exactly once. -/
theorem C15_slot_written_once (client : Client) (fuel from_ to_ : Nat)
    (filter : Address) (hle : from_ ≤ to_) (hto : to_ < 2 ^ 64) :
    (to_ - from_ ≤ 2 ^ 43 → ∃ s0, multiThreadedFetch.init from_ to_ = .ok s0) ∧
    ∀ s0 acts s, multiThreadedFetch.init from_ to_ = .ok s0 →
      exec client fuel from_ filter acts s0 = some s →
        (∀ (t : Nat) (task : Task), s.tasks[t]? = some task →
          task.i = t ∧ t < to_ - from_) ∧
        (∀ t s1, step client fuel from_ filter s (.write t) = some s1 →
          ∃ out calls, s.tasks[t]? = some ⟨t, .fetching⟩ ∧
            fetchBlock client fuel (from_ + t) filter = some (out, calls) ∧
            s1.output = s.output.set t out ∧ s1.output[t]? = some out ∧
            s1.writes = s.writes ++ [t] ∧ t ∉ s.writes ∧
            ∀ j, j ≠ t → s1.output[j]? = s.output[j]?) ∧
        (∀ t s1, step client fuel from_ filter s (.finish t) = some s1 →
          s1.output = s.output ∧ s1.writes = s.writes) ∧
        (∀ s1, step client fuel from_ filter s .main = some s1 →
          s1.output = s.output ∧ s1.writes = s.writes) ∧
        s.writes.Nodup ∧ (∀ j, s.writes.count j ≤ 1) ∧
        (∀ j, j ∈ s.writes → j < to_ - from_) ∧
        (s.pc = .returned → ∀ i, i < to_ - from_ → s.writes.count i = 1) := by
  refine ⟨fun hsz => ⟨_, init_ok from_ to_ hle hto hsz⟩, ?_⟩
  intro s0 acts s h0 he
  obtain ⟨hinv, hruns⟩ := reach_inv client fuel from_ to_ filter hle hto acts s0 s h0 he
  have hidx : ∀ (t : Nat) (task : Task), s.tasks[t]? = some task →
      task.i = t ∧ t < to_ - from_ := by
    intro t task ht
    have htl : t < s.tasks.length := (List.getElem?_eq_some.mp ht).1
    have h1 := hinv.len
    have h2 := hinv.le
    exact ⟨hinv.idx t task ht, by omega⟩
  refine ⟨hidx, ?_, ?_, ?_, hinv.nodup, List.nodup_iff_count_le_one.mp hinv.nodup, ?_, ?_⟩
  · intro t s1 hs
    obtain ⟨i, out, calls, hti, hf, ho, hw, hframe, _⟩ :=
      step_write_frame client fuel from_ filter s s1 t hs
    obtain ⟨hit, hlt⟩ := hidx t _ hti
    simp only at hit
    subst hit
    rw [addU64_of_lt from_ to_ i hto (by omega)] at hf
    have hnot : i ∉ s.writes := by
      intro hm
      obtain ⟨task, ht, hph⟩ := (hinv.mem i).mp hm
      rw [hti] at ht
      cases ht
      exact hph rfl
    have hil : i < s.output.length := by rw [hinv.out, hruns]; exact hlt
    refine ⟨out, calls, hti, hf, ho, ?_, hw, hnot, hframe⟩
    rw [ho, List.getElem?_set, if_pos rfl, if_pos hil]
  · intro t s1 hs
    obtain ⟨h1, h2, _⟩ := step_finish_frame client fuel from_ filter s s1 t hs
    exact ⟨h1, h2⟩
  · intro s1 hs
    exact step_main_frame client fuel from_ filter s s1 hs
  · intro j hj
    have := writes_lt client fuel from_ filter s hinv j hj
    omega
  · intro hret i hi
    exact List.count_eq_one_of_mem hinv.nodup
      (writes_returned client fuel from_ filter s hinv hret i (by omega))

/-- C15 at the example ledger: the slot write of goroutine 1 while goroutine 0
is still scanning touches slot 1 only. -/
theorem C15_witness :
    step exClient 5 10 7
        ⟨2, .gate, 2, 2, [default, default], [⟨0, .fetching⟩, ⟨1, .fetching⟩], [], []⟩
        (.write 1) =
      some ⟨2, .gate, 2, 2, [default, ⟨11, [⟨5, [1, 2, 3, 4, 0], [exLog]⟩]⟩],
        [⟨0, .fetching⟩, ⟨1, .written⟩],
        [.blockByNumber 11 false, .blockByNumber 11 false, .blockByNumber 11 true,
          .transactionReceipt 5 true], [1]⟩ ∧
    (∃ s0, multiThreadedFetch.init 10 12 = .ok s0) ∧
    ∃ out calls,
      (⟨2, .gate, 2, 2, [default, default], [⟨0, .fetching⟩, ⟨1, .fetching⟩], [], []⟩ :
        Sched).tasks[1]? = some ⟨1, .fetching⟩ ∧
      fetchBlock exClient 5 (10 + 1) 7 = some (out, calls) ∧
      (⟨2, .gate, 2, 2, [default, ⟨11, [⟨5, [1, 2, 3, 4, 0], [exLog]⟩]⟩],
        [⟨0, .fetching⟩, ⟨1, .written⟩],
        [.blockByNumber 11 false, .blockByNumber 11 false, .blockByNumber 11 true,
          .transactionReceipt 5 true], [1]⟩ : Sched).output =
        ([default, default] : List fetchBlockOutput).set 1 out := by
  obtain ⟨hex, h⟩ := C15_slot_written_once exClient 5 10 12 7 (by decide) (by norm_num)
  obtain ⟨out, calls, h1, h2, h3, _⟩ :=
    (h ⟨2, .gate, 0, 0, [default, default], [], [], []⟩
      [.main, .main, .main, .main, .main, .main]
      ⟨2, .gate, 2, 2, [default, default], [⟨0, .fetching⟩, ⟨1, .fetching⟩], [], []⟩
      rfl rfl).2.1 1
      ⟨2, .gate, 2, 2, [default, ⟨11, [⟨5, [1, 2, 3, 4, 0], [exLog]⟩]⟩],
        [⟨0, .fetching⟩, ⟨1, .written⟩],
        [.blockByNumber 11 false, .blockByNumber 11 false, .blockByNumber 11 true,
          .transactionReceipt 5 true], [1]⟩ rfl
  exact ⟨rfl, hex (by norm_num), out, calls, h1, h2, h3⟩

/-- C16: in every state any schedule can reach, the counter equals the number
of tasks dispatched (those the dispatcher has counted in by `Add(1)`) minus the
number of goroutines that have performed `Sub(1)`; outside the window between
`Add(1)` and the `go` statement that is the number of goroutines started minus
the number that have decremented. Hence a decrement finds the counter positive
and lowers it by one without wrapping, and an increment raises it by one without
wrapping. -/
theorem C16_counter_exact (client : Client) (fuel from_ to_ : Nat) (filter : Address)
    (acts : List Action) (s0 s : Sched)
    (h0 : multiThreadedFetch.init from_ to_ = .ok s0)
    (he : exec client fuel from_ filter acts s0 = some s) :
    s.activeThreads + decremented s = dispatched s ∧ decremented s ≤ dispatched s ∧
    (s.pc ≠ .spawn → s.activeThreads + decremented s = s.tasks.length) ∧
    (s.pc = .spawn → s.activeThreads + decremented s = s.tasks.length + 1) ∧
    (∀ t s1, step client fuel from_ filter s (.finish t) = some s1 →
      0 < s.activeThreads ∧ s1.activeThreads = mutexedUint.Sub s.activeThreads 1 ∧
        s1.activeThreads + 1 = s.activeThreads) ∧
    (∀ s1, s.pc = .add → step client fuel from_ filter s .main = some s1 →
      s1.activeThreads = mutexedUint.Add s.activeThreads 1 ∧
        s1.activeThreads = s.activeThreads + 1) ∧
    s.activeThreads < 2 ^ 64 := by
  have hinv := inv_exec client fuel from_ filter acts s0 s
    (inv_init client fuel from_ to_ filter s0 h0) he
  obtain ⟨hc1, hc2⟩ := counter_eq client fuel from_ filter s hinv
  have hmax : maxThreads = 80 := rfl
  have hbound := hinv.bound
  refine ⟨hc1, hc2, ?_, ?_, ?_, ?_, ?_⟩
  · intro hpc
    unfold dispatched at hc1
    rw [if_neg hpc] at hc1
    exact hc1
  · intro hpc
    unfold dispatched at hc1
    rw [if_pos hpc] at hc1
    exact hc1
  · intro t s1 hs
    obtain ⟨_, _, i, hti, ha⟩ := step_finish_frame client fuel from_ filter s s1 t hs
    obtain ⟨hpos, hsub⟩ := sub_no_wrap client fuel from_ filter s hinv t i hti
    refine ⟨hpos, ha, ?_⟩
    rw [ha, hsub]
    omega
  · intro s1 hpc hs
    simp only [step, hpc, Option.some.injEq] at hs
    subst hs
    exact ⟨rfl, add_no_wrap client fuel from_ filter s hinv⟩
  · have e : (2 : Nat) ^ 64 = 18446744073709551616 := by norm_num
    rw [e]
    omega

/-- C16 at the example ledger: two tasks dispatched, one of them has
decremented, the counter is one. -/
theorem C16_witness :
    exec exClient 5 10 7 [.main, .main, .main, .main, .main, .main, .write 1, .finish 1]
        ⟨2, .gate, 0, 0, [default, default], [], [], []⟩ =
      some ⟨2, .gate, 2, 1, [default, ⟨11, [⟨5, [1, 2, 3, 4, 0], [exLog]⟩]⟩],
        [⟨0, .fetching⟩, ⟨1, .finished⟩],
        [.blockByNumber 11 false, .blockByNumber 11 false, .blockByNumber 11 true,
          .transactionReceipt 5 true], [1]⟩ ∧
    (1 : Nat) + decremented ⟨2, .gate, 2, 1, [default, ⟨11, [⟨5, [1, 2, 3, 4, 0], [exLog]⟩]⟩],
        [⟨0, .fetching⟩, ⟨1, .finished⟩],
        [.blockByNumber 11 false, .blockByNumber 11 false, .blockByNumber 11 true,
          .transactionReceipt 5 true], [1]⟩ =
      dispatched ⟨2, .gate, 2, 1, [default, ⟨11, [⟨5, [1, 2, 3, 4, 0], [exLog]⟩]⟩],
        [⟨0, .fetching⟩, ⟨1, .finished⟩],
        [.blockByNumber 11 false, .blockByNumber 11 false, .blockByNumber 11 true,
          .transactionReceipt 5 true], [1]⟩ :=
  ⟨rfl, (C16_counter_exact exClient 5 10 12 7
    [.main, .main, .main, .main, .main, .main, .write 1, .finish 1]
    ⟨2, .gate, 0, 0, [default, default], [], [], []⟩ _ rfl rfl).1⟩

/-- C17: a retained transaction whose call input has fewer than 4 bytes (the
empty input included) makes the slice expression that strips the selector
panic: decoding it fails, and every run that gets to decode a block list holding
it ends in a panic and yields no records, so the transaction is not skipped. -/
theorem C17_short_input_fatal (client : Client) (d : Decoder) (fuel from_ to_ : Nat)
    (filter : Address) (acts : List Action) (blockData : List fetchBlockOutput)
    (blk : fetchBlockOutput) (txData : fetchBlockEntry)
    (hrun : multiThreadedFetch client fuel from_ to_ filter acts = some (.ok blockData))
    (hblk : blk ∈ blockData) (htx : txData ∈ blk.data)
    (hshort : txData.input.length < 4) :
    decodeTx d txData = .error .sliceBounds ∧
    (∃ p, decodeBlocks d blockData [] = .error p) ∧
    (∃ p, mainRun client d fuel from_ to_ filter acts = some (.error p)) ∧
    ∀ records, mainRun client d fuel from_ to_ filter acts ≠ some (.ok records) := by
  have h1 := decodeTx_short_input d txData hshort
  obtain ⟨p, hp⟩ := decodeBlocks_error d txData ⟨_, h1⟩ blk htx blockData [] hblk
  have hm : mainRun client d fuel from_ to_ filter acts = some (.error p) := by
    rw [mainRun_of_fetch client d fuel from_ to_ filter acts blockData hrun, hp]
  refine ⟨h1, ⟨p, hp⟩, ⟨p, hm⟩, ?_⟩
  intro records hrec
  rw [hm] at hrec
  cases hrec

/-- C17 at a ledger whose block 30 holds a successful call with a two-byte
input. -/
theorem C17_witness :
    mainRun exShortClient exDecoder 5 30 31 7 exScheduleOne = some (.error .sliceBounds) ∧
    decodeTx exDecoder ⟨1, [1, 2], [exLog]⟩ = .error .sliceBounds :=
  ⟨rfl, (C17_short_input_fatal exShortClient exDecoder 5 30 31 7 exScheduleOne
    [⟨30, [⟨1, [1, 2], [exLog]⟩]⟩] ⟨30, [⟨1, [1, 2], [exLog]⟩]⟩ ⟨1, [1, 2], [exLog]⟩
    rfl (List.mem_singleton.mpr rfl) (List.mem_singleton.mpr rfl) (by decide)).1⟩

/-- C18: for a retained transaction whose call input decodes and whose first
decodable log yields the event `ev`: when the amount payload of `ev` has fewer
than 8 bytes the conversion panics on its bounds check, decoding fails and every
run that gets to decode a block list holding the transaction ends in a panic;
when the payload is `b0 .. b7` followed by further bytes, a record is produced
whose amount is `b0 + b1*256 + ... + b7*256^7`, the value of the first 8 bytes
alone. -/
theorem C18_amount_payload_length (d : Decoder) (txData : fetchBlockEntry)
    (params : List AbiValue) (dataRoot : { l : Bytes // l.length = 32 }) (pre post : List Log)
    (l : Log) (ev : EventFields)
    (hlen : 4 ≤ txData.input.length)
    (hun : d.Unpack (txData.input.drop 4) = .ok params)
    (hroot : params[3]? = some (AbiValue.bytes32 dataRoot))
    (hlogs : txData.logs = pre ++ l :: post)
    (hpre : ∀ x, x ∈ pre → ∃ e, d.UnpackLog x = .error e)
    (hl : d.UnpackLog l = .ok ev) :
    (ev.Amount.length < 8 →
      LittleEndianUint64 ev.Amount = .error .indexRange ∧
      decodeTx d txData = .error .indexRange ∧
      ∀ (client : Client) (fuel from_ to_ : Nat) (filter : Address) (acts : List Action)
        (blockData : List fetchBlockOutput) (blk : fetchBlockOutput),
        multiThreadedFetch client fuel from_ to_ filter acts = some (.ok blockData) →
        blk ∈ blockData → txData ∈ blk.data →
          ∃ p, mainRun client d fuel from_ to_ filter acts = some (.error p)) ∧
    (∀ (b0 b1 b2 b3 b4 b5 b6 b7 : Byte) (rest : Bytes),
      ev.Amount = b0 :: b1 :: b2 :: b3 :: b4 :: b5 :: b6 :: b7 :: rest →
        LittleEndianUint64 ev.Amount = LittleEndianUint64 [b0, b1, b2, b3, b4, b5, b6, b7] ∧
        ∃ r, decodeTx d txData = .ok r ∧
          r.Amount = b0.val + b1.val * 256 + b2.val * 256 ^ 2 + b3.val * 256 ^ 3 +
            b4.val * 256 ^ 4 + b5.val * 256 ^ 5 + b6.val * 256 ^ 6 + b7.val * 256 ^ 7) := by
  have h := decodeTx_event d txData params dataRoot pre post l ev hlen hun hroot hlogs hpre hl
  constructor
  · intro hshort
    have hle := LittleEndianUint64_short ev.Amount hshort
    have hd : decodeTx d txData = .error .indexRange := by rw [h, hle]
    refine ⟨hle, hd, ?_⟩
    intro client fuel from_ to_ filter acts blockData blk hrun hblk htx
    obtain ⟨p, hp⟩ := decodeBlocks_error d txData ⟨_, hd⟩ blk htx blockData [] hblk
    exact ⟨p, by rw [mainRun_of_fetch client d fuel from_ to_ filter acts blockData hrun, hp]⟩
  · intro b0 b1 b2 b3 b4 b5 b6 b7 rest ha
    rw [ha, LittleEndianUint64_cons8] at h
    refine ⟨?_, _, h, rfl⟩
    rw [ha, LittleEndianUint64_cons8, LittleEndianUint64_cons8]

/-- C18 at a deposit log whose amount payload has ten bytes (the record's amount
is that of the first eight), and at a ledger whose block 31 holds a deposit with
a three-byte amount (the run dies). -/
theorem C18_witness :
    mainRun exShortClient exDecoder 5 31 32 7 exScheduleOne = some (.error .indexRange) ∧
    decodeTx exDecoder ⟨2, [1, 2, 3, 4, 6], [exLongLog]⟩ =
      .ok ⟨"0xaa", "0xaabb", 1000000000, "0x09",
        "0x0606060606060606060606060606060606060606060606060606060606060606"⟩ ∧
    (LittleEndianUint64 [0, 0xca, 0x9a, 0x3b, 0, 0, 0, 0, 0xff, 0xff] =
        LittleEndianUint64 [0, 0xca, 0x9a, 0x3b, 0, 0, 0, 0] ∧
      ∃ r, decodeTx exDecoder ⟨2, [1, 2, 3, 4, 6], [exLongLog]⟩ = .ok r ∧
        r.Amount = (0 : Byte).val + (0xca : Byte).val * 256 + (0x9a : Byte).val * 256 ^ 2 +
          (0x3b : Byte).val * 256 ^ 3 + (0 : Byte).val * 256 ^ 4 + (0 : Byte).val * 256 ^ 5 +
          (0 : Byte).val * 256 ^ 6 + (0 : Byte).val * 256 ^ 7) ∧
    (LittleEndianUint64 [1, 0, 0] = .error .indexRange ∧
      decodeTx exDecoder ⟨2, [1, 2, 3, 4, 5], [⟨7, [1], [0xaa, 0xbb, 1, 0, 0]⟩]⟩ =
        .error .indexRange) :=
  ⟨rfl, rfl,
    (C18_amount_payload_length exDecoder ⟨2, [1, 2, 3, 4, 6], [exLongLog]⟩
      [.bytes [6], .bytes [6], .bytes [6], .bytes32 ⟨List.replicate 32 6, by simp⟩]
      ⟨List.replicate 32 6, by simp⟩ [] [] exLongLog
      ⟨[0xaa], [0xaa, 0xbb], [0, 0xca, 0x9a, 0x3b, 0, 0, 0, 0, 0xff, 0xff], [9], [0]⟩
      (by decide) rfl rfl rfl (fun x hx => absurd hx (List.not_mem_nil x)) rfl).2
      0 0xca 0x9a 0x3b 0 0 0 0 [0xff, 0xff] rfl,
    ((C18_amount_payload_length exDecoder
      ⟨2, [1, 2, 3, 4, 5], [⟨7, [1], [0xaa, 0xbb, 1, 0, 0]⟩]⟩
      [.bytes [5], .bytes [5], .bytes [5], .bytes32 ⟨List.replicate 32 5, by simp⟩]
      ⟨List.replicate 32 5, by simp⟩ [] [] ⟨7, [1], [0xaa, 0xbb, 1, 0, 0]⟩
      ⟨[0xaa], [0xaa, 0xbb], [1, 0, 0], [9], [0]⟩
      (by decide) rfl rfl rfl (fun x hx => absurd hx (List.not_mem_nil x)) rfl).1
      (by decide)).1,
    ((C18_amount_payload_length exDecoder
      ⟨2, [1, 2, 3, 4, 5], [⟨7, [1], [0xaa, 0xbb, 1, 0, 0]⟩]⟩
      [.bytes [5], .bytes [5], .bytes [5], .bytes32 ⟨List.replicate 32 5, by simp⟩]
      ⟨List.replicate 32 5, by simp⟩ [] [] ⟨7, [1], [0xaa, 0xbb, 1, 0, 0]⟩
      ⟨[0xaa], [0xaa, 0xbb], [1, 0, 0], [9], [0]⟩
      (by decide) rfl rfl rfl (fun x hx => absurd hx (List.not_mem_nil x)) rfl).1
      (by decide)).2.1⟩

/-- C19: for `from_ > to_` at most `2^63` apart the run count `int(to - from)`
is the negative number `to_ - from_`; the allocation of the result slice panics,
so the scheduler has no state in which a task could be dispatched or a remote
call made, and under every schedule the scheduler and the run end in that panic
instead of handing back an empty slice. -/
theorem C19_negative_run_count (client : Client) (d : Decoder) (fuel from_ to_ : Nat)
    (filter : Address) (hlt : to_ < from_) (hfrom : from_ < 2 ^ 64)
    (hd : from_ - to_ ≤ 2 ^ 63) :
    toInt64 (subU64 to_ from_) = (to_ : Int) - (from_ : Int) ∧
    toInt64 (subU64 to_ from_) < 0 ∧
    multiThreadedFetch.init from_ to_ = .error .makeslice ∧
    (∀ s0, multiThreadedFetch.init from_ to_ ≠ .ok s0) ∧
    (∀ acts, multiThreadedFetch client fuel from_ to_ filter acts = some (.error .makeslice)) ∧
    (∀ acts, multiThreadedFetch client fuel from_ to_ filter acts ≠ some (.ok [])) ∧
    ∀ acts, mainRun client d fuel from_ to_ filter acts = some (.error .makeslice) := by
  have h1 := toInt64_neg from_ to_ hlt hfrom hd
  have h2 := init_neg from_ to_ hlt hfrom hd
  have hm : ∀ acts, multiThreadedFetch client fuel from_ to_ filter acts =
      some (.error .makeslice) := by
    intro acts
    unfold multiThreadedFetch
    rw [h2]
  refine ⟨h1, by rw [h1]; omega, h2, ?_, hm, ?_, ?_⟩
  · intro s0 h
    rw [h2] at h
    cases h
  · intro acts h
    rw [hm acts] at h
    cases h
  · intro acts
    unfold mainRun
    rw [hm acts]

/-- C19 at the reversed range from block 12 to block 10: the run count is -2. -/
theorem C19_witness :
    toInt64 (subU64 10 12) = -2 ∧
    mainRun exClient exDecoder 5 12 10 7 [] = some (.error .makeslice) ∧
    toInt64 (subU64 10 12) = ((10 : Nat) : Int) - ((12 : Nat) : Int) :=
  ⟨rfl, rfl, (C19_negative_run_count exClient exDecoder 5 12 10 7 (by decide) (by norm_num)
    (by norm_num)).1⟩

end DepositScan
